import Mathlib

/-!
Verification of the snowflow DAX engine (backend/dax_engine): a shallow
embedding in Lean 4 of the lexer, parser, schema context (filter context and
BFS join-path search) and SQL validator, with theorems checking the
natural-language specification against the code.

Conventions of the embedding:
  * Python strings are Lean `String`s; character classes of the CPython `re`
    patterns (`\d`, `\s`, `\w`) are modelled on their ASCII fragment, which
    covers every input the spec and the claims mention.
  * Python exceptions are modelled with `Except`: an exception a function can
    raise is an `.error` value, and a caller that does not catch it propagates
    it.  Uncatchable resource exhaustion is not modelled; the recursions are
    fuelled, and fuel exhaustion is a distinguished `.error` that no
    catch-branch absorbs.
  * Wall-clock time (`time.time()` in `_test_execute`) is abstracted away.
-/

set_option maxHeartbeats 1000000

/-! ## ASCII string helpers (the Python fragments the code uses) -/

/-- ASCII fragment of Python `str.lower`. -/
def pyLowerChar (c : Char) : Char :=
  if 'A' ≤ c ∧ c ≤ 'Z' then Char.ofNat (c.toNat + 32) else c

/-- ASCII fragment of Python `str.upper`. -/
def pyUpperChar (c : Char) : Char :=
  if 'a' ≤ c ∧ c ≤ 'z' then Char.ofNat (c.toNat - 32) else c

def pyLower (s : String) : String := String.mk (s.data.map pyLowerChar)

def pyUpper (s : String) : String := String.mk (s.data.map pyUpperChar)

/-- Python regex `\d`, ASCII fragment. -/
def isDigitC (c : Char) : Bool := '0' ≤ c && c ≤ '9'

/-- Python regex `\s`, ASCII fragment: space, tab, newline, carriage return,
vertical tab, form feed. -/
def isSpaceC (c : Char) : Bool :=
  c = ' ' || c = '\t' || c = '\n' || c = '\x0d' || c = '\x0b' || c = '\x0c'

/-- Python regex `\w`, ASCII fragment. -/
def isWordC (c : Char) : Bool :=
  ('a' ≤ c && c ≤ 'z') || ('A' ≤ c && c ≤ 'Z') || isDigitC c || c = '_'

def isAlphaC (c : Char) : Bool :=
  ('a' ≤ c && c ≤ 'z') || ('A' ≤ c && c ≤ 'Z')

/-- Count of leading characters satisfying `p` (the length a greedy
`[class]*` match takes). -/
def leadCount (p : Char → Bool) : List Char → Nat
  | [] => 0
  | c :: rest => if p c then leadCount p rest + 1 else 0

/-- Whether `pat` is a prefix of `cs`, by characters. -/
def listStarts (pat cs : List Char) : Bool :=
  match pat, cs with
  | [], _ => true
  | _ :: _, [] => false
  | p :: ps, c :: rest => p = c && listStarts ps rest

/-- Whether `pat` occurs as a contiguous run in `cs`. -/
def listHasRun (pat : List Char) : List Char → Bool
  | [] => listStarts pat []
  | c :: rest => listStarts pat (c :: rest) || listHasRun pat rest

/-- Python `needle in hay` for strings. -/
def pyContains (hay needle : String) : Bool :=
  listHasRun needle.data hay.data

/-- Python `hay.count(needle)` for a one-character needle. -/
def countChar (c : Char) : List Char → Nat
  | [] => 0
  | d :: rest => (if d = c then 1 else 0) + countChar c rest

/-- Python `hay.count(needle)` for a two-character needle: non-overlapping
occurrences, scanning left to right. -/
def countSub2 (a b : Char) : List Char → Nat
  | c :: d :: rest =>
      if c = a && d = b then countSub2 a b rest + 1 else countSub2 a b (d :: rest)
  | _ => 0

/-- Python `str.strip()` / the trailing part of `\s*$`: drop ASCII whitespace
from both ends. -/
def pyStrip (s : String) : String :=
  String.mk (((s.data.dropWhile (isSpaceC ·)).reverse.dropWhile (isSpaceC ·)).reverse)

def dropTrailingSpace (cs : List Char) : List Char :=
  (cs.reverse.dropWhile (isSpaceC ·)).reverse

/-- Python `" AND ".join` and friends. -/
def pyJoin (sep : String) : List String → String
  | [] => ""
  | [x] => x
  | x :: rest => x ++ sep ++ pyJoin sep rest

/-! ## Lexer (backend/dax_engine/lexer.py) -/

/-- All token types in DAX (`TokenType` in lexer.py). -/
inductive TokenType where
  | INTEGER | FLOAT | STRING | BOOLEAN
  | IDENTIFIER | COLUMN_REF | QUALIFIED_COLUMN | QUOTED_IDENTIFIER
  | KEYWORD | VAR | RETURN | TRUE | FALSE | BLANK
  | PLUS | MINUS | MULTIPLY | DIVIDE | POWER
  | EQUALS | NOT_EQUALS | LESS_THAN | LESS_EQUAL | GREATER_THAN | GREATER_EQUAL
  | AND | OR | NOT | AMPERSAND
  | LPAREN | RPAREN | LBRACKET | RBRACKET | COMMA | SEMICOLON | DOT
  | NEWLINE | WHITESPACE | COMMENT | EOF | ERROR
  deriving DecidableEq, Repr

/-- A single token from the lexer (`Token` in lexer.py): kind, verbatim text,
1-indexed line and column, absolute position. -/
structure Token where
  type : TokenType
  value : String
  line : Nat
  column : Nat
  position : Nat
  deriving DecidableEq, Repr

/-- DAX keywords, case-insensitive (`DAX_KEYWORDS` in lexer.py). -/
def DAX_KEYWORDS : List String :=
  ["SUM", "SUMX", "AVERAGE", "AVERAGEX", "COUNT", "COUNTX", "COUNTA",
   "COUNTAX", "COUNTROWS", "COUNTBLANK", "MIN", "MINX", "MAX", "MAXX",
   "DISTINCTCOUNT", "DISTINCTCOUNTNOBLANK", "PRODUCT", "PRODUCTX",
   "CALCULATE", "CALCULATETABLE", "FILTER", "ALL", "ALLEXCEPT",
   "ALLSELECTED", "ALLNOBLANKROW", "VALUES", "DISTINCT", "KEEPFILTERS",
   "REMOVEFILTERS", "EARLIER", "EARLIEST", "HASONEVALUE", "HASONEFILTER",
   "ISFILTERED", "ISCROSSFILTERED", "SELECTEDVALUE",
   "DATEADD", "DATEDIFF", "SAMEPERIODLASTYEAR", "PREVIOUSYEAR",
   "PREVIOUSQUARTER", "PREVIOUSMONTH", "PREVIOUSDAY", "NEXTYEAR",
   "NEXTQUARTER", "NEXTMONTH", "NEXTDAY", "PARALLELPERIOD",
   "STARTOFYEAR", "STARTOFQUARTER", "STARTOFMONTH", "ENDOFYEAR",
   "ENDOFQUARTER", "ENDOFMONTH", "DATESYTD", "DATESMTD", "DATESQTD",
   "TOTALYTD", "TOTALMTD", "TOTALQTD", "DATESBETWEEN", "DATESINPERIOD",
   "FIRSTDATE", "LASTDATE", "OPENINGBALANCEYEAR", "OPENINGBALANCEQUARTER",
   "OPENINGBALANCEMONTH", "CLOSINGBALANCEYEAR", "CLOSINGBALANCEQUARTER",
   "CLOSINGBALANCEMONTH",
   "IF", "IFERROR", "IFNA", "SWITCH", "AND", "OR", "NOT", "TRUE", "FALSE",
   "ISBLANK", "ISERROR", "ISLOGICAL", "ISNUMBER", "ISTEXT", "ISNONTEXT",
   "COALESCE",
   "CONCATENATE", "CONCATENATEX", "FORMAT", "LEFT", "RIGHT", "MID",
   "LEN", "UPPER", "LOWER", "TRIM", "SUBSTITUTE", "REPLACE", "SEARCH",
   "FIND", "EXACT", "REPT", "UNICODE", "UNICHAR", "VALUE",
   "DIVIDE", "ABS", "ROUND", "ROUNDUP", "ROUNDDOWN", "MROUND", "INT",
   "MOD", "POWER", "SQRT", "LOG", "LOG10", "LN", "EXP", "SIGN", "CEILING",
   "FLOOR", "RAND", "RANDBETWEEN", "PI", "EVEN", "ODD", "FACT", "GCD",
   "LCM", "QUOTIENT", "TRUNC",
   "SUMMARIZE", "SUMMARIZECOLUMNS", "ADDCOLUMNS", "SELECTCOLUMNS",
   "TOPN", "SAMPLE", "GENERATE", "GENERATEALL", "CROSSJOIN",
   "NATURALINNERJOIN", "NATURALLEFTOUTERJOIN", "UNION", "INTERSECT",
   "EXCEPT", "DATATABLE", "ROW", "GENERATESERIES", "CALENDAR",
   "CALENDARAUTO", "TREATAS",
   "RELATED", "RELATEDTABLE", "USERELATIONSHIP", "CROSSFILTER",
   "BLANK", "ERROR", "VAR", "RETURN", "EVALUATE", "DEFINE", "MEASURE",
   "COLUMN", "TABLE", "ORDER", "BY", "ASC", "DESC", "START", "AT"]

/-- Greedy match of `[ \t]+`: the matched length, or none. -/
def matchWs (cs : List Char) : Option Nat :=
  let n := leadCount (fun c => c = ' ' || c = '\t') cs
  if n = 0 then none else some n

/-- Match of `\r?\n`. -/
def matchNl : List Char → Option Nat
  | '\x0d' :: '\n' :: _ => some 2
  | '\n' :: _ => some 1
  | _ => none

/-- Greedy match of `//[^\r\n]*`. -/
def matchLineComment : List Char → Option Nat
  | '/' :: '/' :: rest => some (2 + leadCount (fun c => c ≠ '\x0d' && c ≠ '\n') rest)
  | _ => none

/-- Length up to and including the first `*/` run, for the lazy body of
`/\*[\s\S]*?\*/`. -/
def findStarSlash : List Char → Option Nat
  | '*' :: '/' :: _ => some 2
  | _ :: rest => (findStarSlash rest).map (· + 1)
  | [] => none

/-- Match of the block comment `/\*[\s\S]*?\*/`. -/
def matchBlockComment : List Char → Option Nat
  | '/' :: '*' :: rest => (findStarSlash rest).map (· + 2)
  | _ => none

/-- Body of a quoted literal `(?:[^Q\\]|\\.)*Q` after the opening quote `q`:
consumed length including the closing quote.  `\\.` does not cross a newline
(`.` in CPython `re` without DOTALL). -/
def quotedBody (q : Char) : List Char → Option Nat
  | [] => none
  | '\\' :: c :: rest => if c = '\n' then none else (quotedBody q rest).map (· + 2)
  | '\\' :: [] => none
  | c :: rest =>
      if c = q then some 1
      else if c = '\\' then none
      else (quotedBody q rest).map (· + 1)

/-- Match of `"(?:[^"\\]|\\.)*"`. -/
def matchDqString : List Char → Option Nat
  | '"' :: rest => (quotedBody '"' rest).map (· + 1)
  | _ => none

/-- Match of `'(?:[^'\\]|\\.)*'`. -/
def matchSqIdent : List Char → Option Nat
  | '\'' :: rest => (quotedBody '\'' rest).map (· + 1)
  | _ => none

/-- Match of `\[[^\]]+\]`. -/
def matchColRef : List Char → Option Nat
  | '[' :: rest =>
      let n := leadCount (fun c => c ≠ ']') rest
      if n = 0 then none
      else if rest.drop n ≠ [] then some (n + 2) else none
  | _ => none

/-- Length added by the optional exponent `(?:[eE][+-]?\d+)?` (0 when it does
not fully match). -/
def expTailLen (cs : List Char) : Nat :=
  match cs with
  | e :: rest =>
      if e = 'e' || e = 'E' then
        match rest with
        | s :: rest' =>
            if s = '+' || s = '-' then
              let d := leadCount isDigitC rest'
              if d = 0 then 0 else 2 + d
            else
              let d := leadCount isDigitC rest
              if d = 0 then 0 else 1 + d
        | [] => 0
      else 0
  | [] => 0

/-- Match of the float pattern `\d+\.\d+(?:[eE][+-]?\d+)?`. -/
def matchFloat (cs : List Char) : Option Nat :=
  let d1 := leadCount isDigitC cs
  if d1 = 0 then none
  else
    match cs.drop d1 with
    | '.' :: rest =>
        let d2 := leadCount isDigitC rest
        if d2 = 0 then none
        else some (d1 + 1 + d2 + expTailLen (rest.drop d2))
    | _ => none

/-- Match of the integer pattern `\d+(?:[eE][+-]?\d+)?`. -/
def matchInt (cs : List Char) : Option Nat :=
  let d1 := leadCount isDigitC cs
  if d1 = 0 then none else some (d1 + expTailLen (cs.drop d1))

/-- Match of a fixed operator/delimiter lexeme. -/
def matchLit (pat : List Char) (cs : List Char) : Option Nat :=
  if listStarts pat cs then some pat.length else none

/-- Match of `[a-zA-Z_][a-zA-Z0-9_]*`. -/
def matchIdent : List Char → Option Nat
  | [] => none
  | c :: rest =>
      if isAlphaC c || c = '_' then some (1 + leadCount isWordC rest) else none

/-- The lexer's ordered pattern table (`DaxLexer.TOKEN_PATTERNS`): tried in
order, first match wins. -/
def TOKEN_PATTERNS : List ((List Char → Option Nat) × TokenType) :=
  [(matchWs, .WHITESPACE),
   (matchNl, .NEWLINE),
   (matchLineComment, .COMMENT),
   (matchBlockComment, .COMMENT),
   (matchDqString, .STRING),
   (matchSqIdent, .QUOTED_IDENTIFIER),
   (matchColRef, .COLUMN_REF),
   (matchFloat, .FLOAT),
   (matchInt, .INTEGER),
   (matchLit ['<', '>'], .NOT_EQUALS),
   (matchLit ['<', '='], .LESS_EQUAL),
   (matchLit ['>', '='], .GREATER_EQUAL),
   (matchLit ['&', '&'], .AND),
   (matchLit ['|', '|'], .OR),
   (matchLit ['+'], .PLUS),
   (matchLit ['-'], .MINUS),
   (matchLit ['*'], .MULTIPLY),
   (matchLit ['/'], .DIVIDE),
   (matchLit ['^'], .POWER),
   (matchLit ['='], .EQUALS),
   (matchLit ['<'], .LESS_THAN),
   (matchLit ['>'], .GREATER_THAN),
   (matchLit ['&'], .AMPERSAND),
   (matchLit ['('], .LPAREN),
   (matchLit [')'], .RPAREN),
   (matchLit ['['], .LBRACKET),
   (matchLit [']'], .RBRACKET),
   (matchLit [','], .COMMA),
   (matchLit [';'], .SEMICOLON),
   (matchLit ['.'], .DOT),
   (matchIdent, .IDENTIFIER)]

/-- First pattern of the table that matches at the cursor. -/
def firstMatch : List ((List Char → Option Nat) × TokenType) → List Char →
    Option (Nat × TokenType)
  | [], _ => none
  | (m, ty) :: rest, cs =>
      match m cs with
      | some n => some (n, ty)
      | none => firstMatch rest cs

/-- Reclassification of identifiers (`DaxLexer._classify_token`). -/
def classifyToken (base : TokenType) (value : String) : TokenType :=
  if base = .IDENTIFIER then
    let u := pyUpper value
    if DAX_KEYWORDS.contains u then
      if u = "TRUE" then .TRUE
      else if u = "FALSE" then .FALSE
      else if u = "BLANK" then .BLANK
      else if u = "VAR" then .VAR
      else if u = "RETURN" then .RETURN
      else if u = "AND" then .AND
      else if u = "OR" then .OR
      else if u = "NOT" then .NOT
      else .KEYWORD
    else base
  else base

/-- Python `repr` of a character, the common ASCII cases (used only inside
the lexer's error message). -/
def pyReprChar (c : Char) : String :=
  if c = '\n' then "'\\n'"
  else if c = '\x0d' then "'\\r'"
  else if c = '\t' then "'\\t'"
  else if c = '\\' then "'\\\\'"
  else if c = '\'' then "\"'\""
  else "'" ++ String.mk [c] ++ "'"

/-- How a run of the lexer can fail: a raised `LexerError` (message, line,
column, position), or fuel exhaustion (not a behaviour of the Python code;
never reached with the fuel `tokenize` supplies). -/
inductive LexFailure where
  | lexerError (message : String) (line column position : Nat)
  | fuel
  deriving DecidableEq, Repr

/-- Python `str(LexerError(...))`. -/
def lexerErrorStr (message : String) (line column : Nat) : String :=
  "Lexer error at line " ++ toString line ++ ", column " ++ toString column ++
    ": " ++ message

/-- The scanning loop of `DaxLexer.tokenize`: at each cursor position take the
first matching pattern, build the token (classified), skip whitespace and
comments, advance line on a newline token, and append the EOF token at the
end of input. -/
def tokLoop : Nat → List Char → Nat → Nat → Nat → Except LexFailure (List Token)
  | 0, _, _, _, _ => .error .fuel
  | _ + 1, [], line, col, pos => .ok [⟨.EOF, "", line, col, pos⟩]
  | fuel + 1, c :: cs, line, col, pos =>
      match firstMatch TOKEN_PATTERNS (c :: cs) with
      | none =>
          .error (.lexerError ("Unexpected character: " ++ pyReprChar c) line col pos)
      | some (n, base) =>
          let value := String.mk ((c :: cs).take n)
          let tok : Token := ⟨classifyToken base value, value, line, col, pos⟩
          let col' := if base = .NEWLINE then col else col + n
          let line2 := if tok.type = .NEWLINE then line + 1 else line
          let col2 := if tok.type = .NEWLINE then 1 else col'
          match tokLoop fuel ((c :: cs).drop n) line2 col2 (pos + n) with
          | .error e => .error e
          | .ok rest =>
              if tok.type = .WHITESPACE || tok.type = .COMMENT then .ok rest
              else .ok (tok :: rest)

/-- `DaxLexer.tokenize`: the full token list (whitespace and comments
discarded) terminated by an EOF token, or a raised `LexerError`. -/
def DaxLexer.tokenize (source : String) : Except LexFailure (List Token) :=
  tokLoop (source.length + 1) source.data 1 1 0

/-! ## AST (backend/dax_engine/ast_nodes.py) -/

/-- Binary operators in DAX (`BinaryOperator`). -/
inductive BinaryOperator where
  | ADD | SUBTRACT | MULTIPLY | DIVIDE | POWER
  | EQUALS | NOT_EQUALS | LESS_THAN | LESS_EQUAL | GREATER_THAN | GREATER_EQUAL
  | AND | OR | AMPERSAND
  deriving DecidableEq, Repr

/-- Unary operators in DAX (`UnaryOperator`). -/
inductive UnaryOperator where
  | NEGATE | NOT
  deriving DecidableEq, Repr

/-- The value slot of a `DaxLiteral` (`Union[int, float, str, bool, None]`).
A float is kept as its source text: no claim depends on float arithmetic. -/
inductive DaxLitValue where
  | int (n : Int)
  | float (raw : String)
  | str (s : String)
  | bool (b : Bool)
  | none
  deriving DecidableEq, Repr

/-- DAX AST expressions: the node classes of ast_nodes.py that the parser can
build (`DaxLiteral`, `DaxColumn`, `DaxTable`, `DaxFunction`, `DaxBinaryOp`,
`DaxUnaryOp`, `DaxVariable`, `DaxMeasure`). -/
inductive DaxExpr where
  | lit (value : DaxLitValue) (literalType : String)
  | column (tableName : Option String) (columnName : String)
  | table (tableName : String)
  | func (functionName : String) (arguments : List DaxExpr)
  | binaryOp (left : DaxExpr) (operator : BinaryOperator) (right : DaxExpr)
  | unaryOp (operator : UnaryOperator) (operand : DaxExpr)
  | var (name : String) (value : DaxExpr) (isDefinition : Bool)
  | measure (name : String) (expression : DaxExpr)

/-! ## Parser (backend/dax_engine/parser.py) -/

/-- An exception inside a parse run: a raised `ParseError` (carried as its
`str(e)`, since that is all `parse` records), a raised `ValueError` from a
failed built-in conversion (which `parse` does not catch), or fuel
exhaustion of the embedding. -/
inductive ParseExc where
  | parseError (message : String)
  | valueError (message : String)
  | fuel
  deriving DecidableEq, Repr

/-- Python `str(ParseError(msg))` with no token. -/
def parseErrStr (msg : String) : String := "Parse error: " ++ msg

/-- Python `str(ParseError(msg, token))`. -/
def parseErrStrAt (msg : String) (tok : Token) : String :=
  "Parse error at line " ++ toString tok.line ++ ", column " ++ toString tok.column ++
    ": " ++ msg

/-- Value of a decimal digit string. -/
def digitsVal : List Char → Nat → Nat
  | [], acc => acc
  | c :: rest, acc => digitsVal rest (acc * 10 + (c.toNat - 48))

/-- Python `int(s)` on a lexeme the INTEGER pattern produced: succeeds on a
pure digit string, raises `ValueError` when the lexeme carries an exponent
part (`1e5`), which `int` does not accept. -/
def pyInt (s : String) : Except ParseExc Int :=
  if s.data ≠ [] ∧ s.data.all (isDigitC ·) then .ok (digitsVal s.data 0)
  else .error (.valueError ("invalid literal for int() with base 10: '" ++ s ++ "'"))

/-- Python `value[1:-1]` (strip the delimiter pair). -/
def stripEnds (s : String) : String := String.mk (s.data.drop 1).dropLast

def dummyToken : Token := ⟨.EOF, "", 0, 0, 0⟩

/-- `DaxParser._peek` (the token list always ends in EOF, so the index stays
in range in every reachable state). -/
def peekTok (toks : List Token) (i : Nat) : Token := toks.getD i dummyToken

/-- `DaxParser._previous`. -/
def prevTok (toks : List Token) (i : Nat) : Token := peekTok toks (i - 1)

/-- `DaxParser._is_at_end`. -/
def atEnd (toks : List Token) (i : Nat) : Bool := (peekTok toks i).type = .EOF

/-- `DaxParser._check`. -/
def checkTok (toks : List Token) (i : Nat) (ty : TokenType) : Bool :=
  !atEnd toks i && (peekTok toks i).type = ty

/-- `DaxParser._match` on one type: when it returns true the caller's index
advances by one (`_advance` from a non-end position). -/
def matchTok (toks : List Token) (i : Nat) (ty : TokenType) : Bool :=
  checkTok toks i ty

/-- `DaxParser._qualified_reference`: consumes an identifier / quoted
identifier / keyword and an optional `[Column]`; calls no grammar rule. -/
def qualifiedRef (toks : List Token) (i : Nat) : Except ParseExc (DaxExpr × Nat) :=
  let step : Except ParseExc (String × Nat) :=
    if checkTok toks i .QUOTED_IDENTIFIER then .ok (stripEnds (peekTok toks i).value, i + 1)
    else if checkTok toks i .IDENTIFIER then .ok ((peekTok toks i).value, i + 1)
    else if checkTok toks i .KEYWORD then .ok ((peekTok toks i).value, i + 1)
    else .error (.parseError (parseErrStr "Expected identifier"))
  match step with
  | .error e => .error e
  | .ok (name, j) =>
      if checkTok toks j .COLUMN_REF then
        .ok (.column (some name) (stripEnds (peekTok toks j).value), j + 1)
      else
        .ok (.table name, j)

/-- Tail of `DaxParser._call` once the argument list is read: expect `)` and
build the `DaxFunction` node. -/
def finishCall (toks : List Token) (i : Nat) (fname : String) (args : List DaxExpr) :
    Except ParseExc (DaxExpr × Nat) :=
  if matchTok toks i .RPAREN then .ok (.func fname args, i + 1)
  else .error (.parseError (parseErrStr "Expected ')' after function arguments"))

/-- The grammar rule (or in-rule loop state) a recursive-descent step is in.
One constructor per method of `DaxParser`, with the `while` loops of the
binary-operator rules and of `_var_expression`/`_arguments` carried as
explicit loop states. -/
inductive PRule where
  | expression
  | varLoop
  | logicOr
  | logicOrLoop (e : DaxExpr)
  | logicAnd
  | logicAndLoop (e : DaxExpr)
  | equality
  | equalityLoop (e : DaxExpr)
  | comparison
  | comparisonLoop (e : DaxExpr)
  | term
  | termLoop (e : DaxExpr)
  | factor
  | factorLoop (e : DaxExpr)
  | unary
  | power
  | call
  | argsLoop (fname : String) (acc : List DaxExpr)
  | primary

/-- One fuelled interpreter for the mutually recursive rule methods of
`DaxParser` (`_expression` … `_primary`).  Structurally recursive on the
fuel so that closed runs reduce definitionally. -/
def parseRun : Nat → PRule → List Token → Nat → Except ParseExc (DaxExpr × Nat)
  | 0, _, _, _ => .error .fuel
  | fuel + 1, r, toks, i =>
      match r with
      | .expression =>
          if checkTok toks i .VAR then parseRun fuel .varLoop toks i
          else parseRun fuel .logicOr toks i
      | .varLoop =>
          if matchTok toks i .VAR then
            if !checkTok toks (i + 1) .IDENTIFIER then
              .error (.parseError (parseErrStr "Expected variable name after VAR"))
            else if !matchTok toks (i + 2) .EQUALS then
              .error (.parseError (parseErrStr "Expected '=' in variable definition"))
            else
              match parseRun fuel .logicOr toks (i + 3) with
              | .error e => .error e
              | .ok (_, j) => parseRun fuel .varLoop toks j
          else if !matchTok toks i .RETURN then
            .error (.parseError (parseErrStr "Expected RETURN after VAR definitions"))
          else
            parseRun fuel .expression toks (i + 1)
      | .logicOr =>
          match parseRun fuel .logicAnd toks i with
          | .error e => .error e
          | .ok (e, j) => parseRun fuel (.logicOrLoop e) toks j
      | .logicOrLoop e =>
          if matchTok toks i .OR then
            match parseRun fuel .logicAnd toks (i + 1) with
            | .error e' => .error e'
            | .ok (right, j) => parseRun fuel (.logicOrLoop (.binaryOp e .OR right)) toks j
          else .ok (e, i)
      | .logicAnd =>
          match parseRun fuel .equality toks i with
          | .error e => .error e
          | .ok (e, j) => parseRun fuel (.logicAndLoop e) toks j
      | .logicAndLoop e =>
          if matchTok toks i .AND then
            match parseRun fuel .equality toks (i + 1) with
            | .error e' => .error e'
            | .ok (right, j) => parseRun fuel (.logicAndLoop (.binaryOp e .AND right)) toks j
          else .ok (e, i)
      | .equality =>
          match parseRun fuel .comparison toks i with
          | .error e => .error e
          | .ok (e, j) => parseRun fuel (.equalityLoop e) toks j
      | .equalityLoop e =>
          if matchTok toks i .EQUALS then
            match parseRun fuel .comparison toks (i + 1) with
            | .error e' => .error e'
            | .ok (right, j) =>
                parseRun fuel (.equalityLoop (.binaryOp e .EQUALS right)) toks j
          else if matchTok toks i .NOT_EQUALS then
            match parseRun fuel .comparison toks (i + 1) with
            | .error e' => .error e'
            | .ok (right, j) =>
                parseRun fuel (.equalityLoop (.binaryOp e .NOT_EQUALS right)) toks j
          else .ok (e, i)
      | .comparison =>
          match parseRun fuel .term toks i with
          | .error e => .error e
          | .ok (e, j) => parseRun fuel (.comparisonLoop e) toks j
      | .comparisonLoop e =>
          if matchTok toks i .LESS_THAN then
            match parseRun fuel .term toks (i + 1) with
            | .error e' => .error e'
            | .ok (right, j) =>
                parseRun fuel (.comparisonLoop (.binaryOp e .LESS_THAN right)) toks j
          else if matchTok toks i .LESS_EQUAL then
            match parseRun fuel .term toks (i + 1) with
            | .error e' => .error e'
            | .ok (right, j) =>
                parseRun fuel (.comparisonLoop (.binaryOp e .LESS_EQUAL right)) toks j
          else if matchTok toks i .GREATER_THAN then
            match parseRun fuel .term toks (i + 1) with
            | .error e' => .error e'
            | .ok (right, j) =>
                parseRun fuel (.comparisonLoop (.binaryOp e .GREATER_THAN right)) toks j
          else if matchTok toks i .GREATER_EQUAL then
            match parseRun fuel .term toks (i + 1) with
            | .error e' => .error e'
            | .ok (right, j) =>
                parseRun fuel (.comparisonLoop (.binaryOp e .GREATER_EQUAL right)) toks j
          else .ok (e, i)
      | .term =>
          match parseRun fuel .factor toks i with
          | .error e => .error e
          | .ok (e, j) => parseRun fuel (.termLoop e) toks j
      | .termLoop e =>
          if matchTok toks i .PLUS then
            match parseRun fuel .factor toks (i + 1) with
            | .error e' => .error e'
            | .ok (right, j) => parseRun fuel (.termLoop (.binaryOp e .ADD right)) toks j
          else if matchTok toks i .MINUS then
            match parseRun fuel .factor toks (i + 1) with
            | .error e' => .error e'
            | .ok (right, j) =>
                parseRun fuel (.termLoop (.binaryOp e .SUBTRACT right)) toks j
          else if matchTok toks i .AMPERSAND then
            match parseRun fuel .factor toks (i + 1) with
            | .error e' => .error e'
            | .ok (right, j) =>
                parseRun fuel (.termLoop (.binaryOp e .AMPERSAND right)) toks j
          else .ok (e, i)
      | .factor =>
          match parseRun fuel .unary toks i with
          | .error e => .error e
          | .ok (e, j) => parseRun fuel (.factorLoop e) toks j
      | .factorLoop e =>
          if matchTok toks i .MULTIPLY then
            match parseRun fuel .unary toks (i + 1) with
            | .error e' => .error e'
            | .ok (right, j) =>
                parseRun fuel (.factorLoop (.binaryOp e .MULTIPLY right)) toks j
          else if matchTok toks i .DIVIDE then
            match parseRun fuel .unary toks (i + 1) with
            | .error e' => .error e'
            | .ok (right, j) =>
                parseRun fuel (.factorLoop (.binaryOp e .DIVIDE right)) toks j
          else .ok (e, i)
      | .unary =>
          if matchTok toks i .MINUS then
            match parseRun fuel .unary toks (i + 1) with
            | .error e => .error e
            | .ok (operand, j) => .ok (.unaryOp .NEGATE operand, j)
          else if matchTok toks i .NOT then
            match parseRun fuel .unary toks (i + 1) with
            | .error e => .error e
            | .ok (operand, j) => .ok (.unaryOp .NOT operand, j)
          else parseRun fuel .power toks i
      | .power =>
          match parseRun fuel .call toks i with
          | .error e => .error e
          | .ok (e, j) =>
              if matchTok toks j .POWER then
                match parseRun fuel .power toks (j + 1) with
                | .error e' => .error e'
                | .ok (right, k) => .ok (.binaryOp e .POWER right, k)
              else .ok (e, j)
      | .call =>
          match parseRun fuel .primary toks i with
          | .error e => .error e
          | .ok (e, j) =>
              match e with
              | .table fname =>
                  if matchTok toks j .LPAREN then
                    if checkTok toks (j + 1) .RPAREN then
                      finishCall toks (j + 1) fname []
                    else
                      parseRun fuel (.argsLoop fname []) toks (j + 1)
                  else .ok (e, j)
              | _ => .ok (e, j)
      | .argsLoop fname acc =>
          match parseRun fuel .expression toks i with
          | .error e => .error e
          | .ok (a, j) =>
              if matchTok toks j .COMMA then
                parseRun fuel (.argsLoop fname (acc ++ [a])) toks (j + 1)
              else
                finishCall toks j fname (acc ++ [a])
      | .primary =>
          if matchTok toks i .TRUE then .ok (.lit (.bool true) "boolean", i + 1)
          else if matchTok toks i .FALSE then .ok (.lit (.bool false) "boolean", i + 1)
          else if checkTok toks i .BLANK then
            if matchTok toks (i + 1) .LPAREN then
              if matchTok toks (i + 2) .RPAREN then .ok (.lit .none "blank", i + 3)
              else .ok (.lit .none "blank", i + 2)
            else .ok (.lit .none "blank", i + 1)
          else if matchTok toks i .INTEGER then
            match pyInt (peekTok toks i).value with
            | .error e => .error e
            | .ok n => .ok (.lit (.int n) "integer", i + 1)
          else if matchTok toks i .FLOAT then
            .ok (.lit (.float (peekTok toks i).value) "float", i + 1)
          else if matchTok toks i .STRING then
            .ok (.lit (.str (stripEnds (peekTok toks i).value)) "string", i + 1)
          else if matchTok toks i .COLUMN_REF then
            .ok (.column Option.none (stripEnds (peekTok toks i).value), i + 1)
          else if checkTok toks i .IDENTIFIER || checkTok toks i .QUOTED_IDENTIFIER then
            qualifiedRef toks i
          else if checkTok toks i .KEYWORD then
            qualifiedRef toks i
          else if matchTok toks i .LPAREN then
            match parseRun fuel .expression toks (i + 1) with
            | .error e => .error e
            | .ok (e, j) =>
                if matchTok toks j .RPAREN then .ok (e, j + 1)
                else .error (.parseError (parseErrStr "Expected ')' after grouped expression"))
          else
            .error (.parseError
              (parseErrStrAt ("Unexpected token: " ++ (peekTok toks i).value) (peekTok toks i)))

/-- Fuel that is ample for any run over `toks`: between two consumed tokens
the descent chain visits at most a fixed number of rules. -/
def parserFuel (toks : List Token) : Nat := 32 * (toks.length + 2)

/-- Result of parsing a DAX expression (`ParseResult`). -/
structure ParseResult where
  ast : DaxExpr
  tokens : List Token
  source : String
  errors : List String

/-- `ParseResult.success`: true iff the error list is empty. -/
def ParseResult.success (r : ParseResult) : Bool := r.errors.isEmpty

/-- An exception that escapes a public parser entry point: a `ValueError`
from a literal conversion (not caught by `parse`), or fuel exhaustion of the
embedding. -/
inductive PyFault where
  | valueError (message : String)
  | fuel
  deriving DecidableEq, Repr

/-- `DaxParser.parse`: tokenize (a `LexerError` is caught and recorded),
parse an expression (a `ParseError` is caught and recorded, with the
blank-literal placeholder AST), flag one trailing-token error when tokens
remain before EOF.  A `ValueError` escapes. -/
def daxParse (source : String) : Except PyFault ParseResult :=
  match DaxLexer.tokenize source with
  | .error (.lexerError msg line col _) =>
      .ok ⟨.lit .none "blank", [], source, [lexerErrorStr msg line col]⟩
  | .error .fuel => .error .fuel
  | .ok toks =>
      match parseRun (parserFuel toks) .expression toks 0 with
      | .ok (ast, i) =>
          let errs :=
            if !atEnd toks i then
              ["Unexpected token after expression: " ++ (peekTok toks i).value]
            else []
          .ok ⟨ast, toks, source, errs⟩
      | .error (.parseError msg) => .ok ⟨.lit .none "blank", toks, source, [msg]⟩
      | .error (.valueError msg) => .error (.valueError msg)
      | .error .fuel => .error .fuel

/-- `DaxParser.parse_measure`: expects `[Name] = expression`; unlike `parse`
it performs no trailing-token check after the expression. -/
def daxParseMeasure (source : String) : Except PyFault ParseResult :=
  match DaxLexer.tokenize source with
  | .error (.lexerError msg line col _) =>
      .ok ⟨.lit .none "blank", [], source, [lexerErrorStr msg line col]⟩
  | .error .fuel => .error .fuel
  | .ok toks =>
      if !checkTok toks 0 .COLUMN_REF then
        .ok ⟨.lit .none "blank", toks, source,
             [parseErrStr "Expected measure name in brackets [Name]"]⟩
      else
        let name := stripEnds (peekTok toks 0).value
        if !matchTok toks 1 .EQUALS then
          .ok ⟨.lit .none "blank", toks, source,
               [parseErrStr "Expected '=' after measure name"]⟩
        else
          match parseRun (parserFuel toks) .expression toks 2 with
          | .ok (expr, _) => .ok ⟨.measure name expr, toks, source, []⟩
          | .error (.parseError msg) => .ok ⟨.lit .none "blank", toks, source, [msg]⟩
          | .error (.valueError msg) => .error (.valueError msg)
          | .error .fuel => .error .fuel

/-! ## Schema context (backend/dax_engine/context.py) -/

/-- `RelationshipType`. -/
inductive RelationshipType where
  | ONE_TO_MANY | MANY_TO_ONE | ONE_TO_ONE | MANY_TO_MANY
  deriving DecidableEq, Repr

/-- `CrossFilterDirection`. -/
inductive CrossFilterDirection where
  | SINGLE | BOTH | NONE
  deriving DecidableEq, Repr

/-- `TableRelationship`: a relationship between two tables. -/
structure TableRelationship where
  from_table : String
  from_column : String
  to_table : String
  to_column : String
  relationship_type : RelationshipType := .MANY_TO_ONE
  cross_filter : CrossFilterDirection := .SINGLE
  is_active : Bool := true
  deriving DecidableEq, Repr

/-- `FilterContext`: the ordered filter dict (`table.column` key to condition
list, in insertion order, as a Python dict preserves it) and the set of
removed keys. -/
structure FilterContext where
  filters : List (String × List String)
  removed_filters : List String
  deriving DecidableEq, Repr

def emptyFilterContext : FilterContext := ⟨[], []⟩

/-- Python `s.startswith(pre)`. -/
def strStarts (pre s : String) : Bool := listStarts pre.data s.data

/-- `FilterContext.add_filter`. -/
def FilterContext.add_filter (fc : FilterContext) (table column condition : String) :
    FilterContext :=
  let key := table ++ "." ++ column
  if (fc.filters.map Prod.fst).contains key then
    { fc with filters :=
        fc.filters.map fun kv => if kv.1 = key then (kv.1, kv.2 ++ [condition]) else kv }
  else
    { fc with filters := fc.filters ++ [(key, [condition])] }

/-- Insertion into the removed-key set. -/
def addRemoved (removed : List String) (k : String) : List String :=
  if removed.contains k then removed else removed ++ [k]

/-- `FilterContext.remove_filter`: one column (key blacklisted outright) or a
whole table (every key currently in `filters` with the `table.` prefix). -/
def FilterContext.remove_filter (fc : FilterContext) (table : String)
    (column : Option String) : FilterContext :=
  match column with
  | some c => { fc with removed_filters := addRemoved fc.removed_filters (table ++ "." ++ c) }
  | Option.none =>
      let keys := (fc.filters.map Prod.fst).filter (fun k => strStarts (table ++ ".") k)
      { fc with removed_filters := keys.foldl addRemoved fc.removed_filters }

/-- `FilterContext.get_effective_filters`. -/
def FilterContext.get_effective_filters (fc : FilterContext) : List (String × List String) :=
  fc.filters.filter fun kv => !fc.removed_filters.contains kv.1

/-- `FilterContext.to_where_clause`. -/
def FilterContext.to_where_clause (fc : FilterContext) : String :=
  let eff := fc.get_effective_filters
  if eff.isEmpty then ""
  else pyJoin " AND " (eff.map Prod.snd).flatten

/-- One call on a `FilterContext`, for quantifying over call sequences. -/
inductive FilterOp where
  | add (table column condition : String)
  | removeCol (table column : String)
  | removeTable (table : String)
  deriving DecidableEq, Repr

def applyFilterOp (fc : FilterContext) : FilterOp → FilterContext
  | .add t c cond => fc.add_filter t c cond
  | .removeCol t c => fc.remove_filter t (some c)
  | .removeTable t => fc.remove_filter t Option.none

def runFilterOps (ops : List FilterOp) : FilterContext :=
  ops.foldl applyFilterOp emptyFilterContext

/-- `SchemaContext.get_join_path` reads only `self.relationships`; the next
table one active relationship leads to from `current` (both directions, the
`from` side checked first). -/
def relNext (r : TableRelationship) (current : String) : Option String :=
  if pyLower r.from_table = current then some (pyLower r.to_table)
  else if pyLower r.to_table = current then some (pyLower r.from_table)
  else none

/-- The inner `for rel in self.relationships` scan of one BFS step: skips
inactive relationships and visited neighbours, returns the full path on
reaching the target, otherwise extends `visited` and the queue. -/
def bfsScan (tl current : String) (path : List TableRelationship) :
    List TableRelationship → List String → List (String × List TableRelationship) →
    Sum (List TableRelationship) (List String × List (String × List TableRelationship))
  | [], visited, queue => .inr (visited, queue)
  | r :: rest, visited, queue =>
      if !r.is_active then bfsScan tl current path rest visited queue
      else
        match relNext r current with
        | Option.none => bfsScan tl current path rest visited queue
        | some nt =>
            if visited.contains nt then bfsScan tl current path rest visited queue
            else if nt = tl then .inl (path ++ [r])
            else bfsScan tl current path rest (visited ++ [nt]) (queue ++ [(nt, path ++ [r])])

/-- The BFS worklist loop of `get_join_path` (`queue.pop(0)` then the scan). -/
def bfsLoop (rels : List TableRelationship) (tl : String) :
    Nat → List String → List (String × List TableRelationship) → List TableRelationship
  | 0, _, _ => []
  | _ + 1, _, [] => []
  | fuel + 1, visited, (current, path) :: qrest =>
      match bfsScan tl current path rels visited qrest with
      | .inl found => found
      | .inr (v', q') => bfsLoop rels tl fuel v' q'

/-- `SchemaContext.get_join_path`: empty list when the names agree after
lowercasing, else BFS over the relationship list; empty list again when the
queue empties without reaching the target.  The fuel bounds the number of
pops, which never exceeds the number of enqueues, itself at most
`1 + 2 * rels.length` since every enqueued table is new to `visited`. -/
def getJoinPath (rels : List TableRelationship) (fromTable toTable : String) :
    List TableRelationship :=
  let fl := pyLower fromTable
  let tl := pyLower toTable
  if fl = tl then []
  else bfsLoop rels tl (2 * rels.length + 2) [fl] [(fl, [])]

/-- Where a traversal from `a` along relationships `p` ends, each step taken
through `relNext` on an active relationship (the undirected-chain semantics
of the BFS). -/
def chainDest : String → List TableRelationship → Option String
  | a, [] => some a
  | a, r :: rest =>
      if r.is_active then
        match relNext r a with
        | some b => chainDest b rest
        | Option.none => Option.none
      else Option.none

/-- `p` is a chain of active relationships of `rels` leading from `a` to `b`. -/
def isChainB (rels : List TableRelationship) (a : String) (p : List TableRelationship)
    (b : String) : Bool :=
  p.all (rels.contains ·) && chainDest a p == some b

/-- The relationships of `create_sample_retail_context()`: the retail star
schema, `sales` the fact table with one active many-to-one relationship to
each dimension. -/
def retailRels : List TableRelationship :=
  [⟨"sales", "date_key", "dim_date", "date_key", .MANY_TO_ONE, .SINGLE, true⟩,
   ⟨"sales", "product_key", "dim_product", "product_key", .MANY_TO_ONE, .SINGLE, true⟩,
   ⟨"sales", "store_key", "dim_store", "store_key", .MANY_TO_ONE, .SINGLE, true⟩,
   ⟨"sales", "customer_key", "dim_customer", "customer_key", .MANY_TO_ONE, .SINGLE, true⟩]

/-! ## SQL validator (backend/dax_engine/validator.py) -/

/-- `ValidationLevel`. -/
inductive ValidationLevel where
  | ERROR | WARNING | INFO | SUCCESS
  deriving DecidableEq, Repr

/-- `ValidationIssue`. -/
structure ValidationIssue where
  level : ValidationLevel
  message : String
  location : Option String := Option.none
  suggestion : Option String := Option.none
  deriving DecidableEq, Repr

/-- `ValidationResult` (`execution_time_ms`, a wall-clock float, is
abstracted away). -/
structure ValidationResult where
  is_valid : Bool
  issues : List ValidationIssue
  sql_normalized : String
  execution_result : Option String := Option.none
  deriving DecidableEq, Repr

/-- `SqlValidator._normalize_sql`: collapse whitespace runs to one space,
then strip. -/
def collapseWs (prevWs : Bool) : List Char → List Char
  | [] => []
  | c :: rest =>
      if isSpaceC c then
        if prevWs then collapseWs true rest else ' ' :: collapseWs true rest
      else c :: collapseWs false rest

def normalizeSql (sql : String) : String :=
  pyStrip (String.mk (collapseWs false sql.data))

/-- The character loop of `SqlValidator._check_balanced_parens`: running
count over every character, first dip below zero reported with its position
and the scan stopped; a positive final count reported at the end. -/
def parenScan : List Char → Int → Nat → List ValidationIssue
  | [], count, _ =>
      if count > 0 then
        [⟨.ERROR, "Unbalanced parentheses: " ++ toString count ++ " unclosed",
          Option.none, Option.none⟩]
      else []
  | c :: rest, count, i =>
      let count' := if c = '(' then count + 1 else if c = ')' then count - 1 else count
      if count' < 0 then
        [⟨.ERROR, "Unbalanced parentheses: extra closing parenthesis",
          some ("Position " ++ toString i), Option.none⟩]
      else parenScan rest count' (i + 1)

def checkBalancedParens (sql : String) : List ValidationIssue :=
  parenScan sql.data 0 0

/-- `SqlValidator._check_balanced_quotes`: parity of quote count minus twice
the escaped-quote count (Python ints, so the difference may go negative). -/
def checkBalancedQuotes (sql : String) : List ValidationIssue :=
  let cs := sql.data
  let singleCount : Int := (countChar '\'' cs : Int) - (countSub2 '\\' '\'' cs : Int) * 2
  let doubleCount : Int := (countChar '"' cs : Int) - (countSub2 '\\' '"' cs : Int) * 2
  (if singleCount % 2 ≠ 0 then
    [⟨.ERROR, "Unbalanced single quotes", Option.none, Option.none⟩] else []) ++
  (if doubleCount % 2 ≠ 0 then
    [⟨.ERROR, "Unbalanced double quotes", Option.none, Option.none⟩] else [])

/-- Whether `cs`, trailing whitespace dropped, ends in `w` (compared
upper-cased) preceded by a word boundary — the `\b(AND|OR)\s*$` test. -/
def endsWordCI (w : String) (cs : List Char) : Bool :=
  let t := dropTrailingSpace cs
  let n := w.length
  decide (n ≤ t.length) &&
    (String.mk ((t.drop (t.length - n)).map pyUpperChar) = w) &&
    (t.length = n || !(isWordC (t.getD (t.length - n - 1) ' ')))

/-- `SqlValidator._check_incomplete_statements`: trailing comma
(`,\s*$`) and trailing AND/OR (`\b(AND|OR)\s*$`, case-insensitive); the
SELECT-without-FROM branch deliberately adds nothing. -/
def checkIncompleteStatements (sql : String) : List ValidationIssue :=
  let t := dropTrailingSpace sql.data
  (if t.getLast? = some ',' then
    [⟨.ERROR, "Trailing comma at end of expression", Option.none,
      some "Remove the trailing comma"⟩] else []) ++
  (if endsWordCI "AND" sql.data || endsWordCI "OR" sql.data then
    [⟨.ERROR, "Incomplete condition: trailing AND/OR", Option.none, Option.none⟩] else [])

/-- Whether `NULL` (case-insensitive) followed by a word boundary starts
here. -/
def startsNullCI (cs : List Char) : Bool :=
  match cs with
  | n :: u :: l1 :: l2 :: rest =>
      pyUpperChar n = 'N' && pyUpperChar u = 'U' && pyUpperChar l1 = 'L' &&
        pyUpperChar l2 = 'L' && !(isWordC (rest.headD ' '))
  | _ => false

/-- One position of the `=\s*NULL\b` search. -/
def eqNullHere : List Char → Bool
  | '=' :: rest => startsNullCI (rest.dropWhile (isSpaceC ·))
  | _ => false

def hasEqNull : List Char → Bool
  | [] => false
  | c :: rest => eqNullHere (c :: rest) || hasEqNull rest

/-- One position of the `/\s*\d+\.?\d*` search: a slash whose next
non-whitespace character is a digit. -/
def slashDigitHere : List Char → Bool
  | '/' :: rest => isDigitC ((rest.dropWhile (isSpaceC ·)).headD ' ')
  | _ => false

def hasSlashDigit : List Char → Bool
  | [] => false
  | c :: rest => slashDigitHere (c :: rest) || hasSlashDigit rest

/-- `SqlValidator._check_common_mistakes`: `= NULL` warning, unguarded
division info, line-comment warning (the `||` branch deliberately adds
nothing). -/
def checkCommonMistakes (sql : String) : List ValidationIssue :=
  let up := pyUpper sql
  (if hasEqNull sql.data then
    [⟨.WARNING, "Using = NULL instead of IS NULL", Option.none,
      some "Use 'IS NULL' or 'IS NOT NULL' for null comparisons"⟩] else []) ++
  (if pyContains sql "/" && !pyContains up "NULLIF" && !pyContains up "CASE" &&
      !hasSlashDigit sql.data then
    [⟨.INFO, "Division detected - ensure denominator cannot be zero", Option.none,
      some "Consider using NULLIF(denominator, 0) or CASE WHEN"⟩] else []) ++
  (if pyContains sql "--" && !pyContains sql "\n" then
    [⟨.WARNING, "Line comment (--) may hide part of the expression",
      Option.none, Option.none⟩] else [])

/-- `SqlValidator._validate_syntax`: empty SQL short-circuits; otherwise
parens, quotes, incomplete statements, common mistakes, in that order. -/
def validateStx (sql : String) : List ValidationIssue :=
  if pyStrip sql = "" then
    [⟨.ERROR, "Empty SQL expression", Option.none, Option.none⟩]
  else
    checkBalancedParens sql ++ checkBalancedQuotes sql ++
      checkIncompleteStatements sql ++ checkCommonMistakes sql

/-- `SqlValidator.validate_expression`. -/
def validateExpression (sqlExpr : String) : ValidationResult :=
  let issues :=
    (if pyStrip sqlExpr = "" then
      [⟨.ERROR, "Empty expression", Option.none, Option.none⟩] else []) ++
    checkBalancedParens sqlExpr ++ checkCommonMistakes sqlExpr
  ⟨!(issues.any (·.level = .ERROR)), issues, pyStrip sqlExpr, Option.none⟩

/-- The dictionary `SqlValidator._test_execute` returns (`time_ms`
abstracted): the backend result on success, the stringified backend
exception in `error` on failure — the method catches the exception itself,
so it returns in both cases. -/
structure TestExecResult where
  result : Option String
  error : Option String
  deriving DecidableEq, Repr

/-- `SqlValidator._test_execute` with a client, over an opaque backend whose
call either returns rows or raises. -/
def testExecute (backend : Except String String) : TestExecResult :=
  match backend with
  | .ok r => ⟨some r, Option.none⟩
  | .error e => ⟨Option.none, some e⟩

/-- `SqlValidator.validate(sql, check_syntax=True, check_schema=True,
execute=True)` with a client, over the outcome of the `self._test_execute`
call: `.ok` a returned dictionary, `.error` an exception raised by the call
itself (the `except` branch of `validate`).  `_validate_schema` returns `[]`
in the code.  `if exec_result.get("error"):` tests Python truthiness: a
missing (`None`) error and the empty-string error are both falsy and record
no issue. -/
def validateWithExecOutcome (sql : String) (callOutcome : Except String TestExecResult) :
    ValidationResult :=
  let n := normalizeSql sql
  let syntaxIssues := validateStx n
  let schemaIssues : List ValidationIssue := []
  let execPart :
      List ValidationIssue × Option String :=
    match callOutcome with
    | .ok d =>
        match d.error with
        | some err =>
            if err = "" then ([], d.result)
            else
              ([⟨.ERROR, "Execution failed: " ++ err, Option.none, Option.none⟩],
               d.result)
        | Option.none => ([], d.result)
    | .error e =>
        ([⟨.WARNING, "Could not test execution: " ++ e, Option.none, Option.none⟩],
         Option.none)
  let issues := syntaxIssues ++ schemaIssues ++ execPart.1
  ⟨!(issues.any (·.level = .ERROR)), issues, n, execPart.2⟩

/-- `validate(sql, execute=True)` through the real `_test_execute`, which
never raises (it catches the backend exception and returns it in the
dictionary). -/
def validateExec (sql : String) (backend : Except String String) : ValidationResult :=
  validateWithExecOutcome sql (.ok (testExecute backend))

/-! ## Specification-side definitions (for stating the claims) -/

/-- The AST `parse` returns, when it returns. -/
def parsedAst (s : String) : Option DaxExpr :=
  match daxParse s with
  | .ok r => some r.ast
  | .error _ => Option.none

/-- The `table.column` key of a filter. -/
def filterKey (t c : String) : String := t ++ "." ++ c

/-- Whether a call adds a condition under key `k`. -/
def opAddsKey : FilterOp → String → Bool
  | .add t c _, k => filterKey t c = k
  | _, _ => false

/-- All conditions the call sequence adds under key `k`, in order. -/
def addedConds (ops : List FilterOp) (k : String) : List String :=
  ops.filterMap fun op =>
    match op with
    | .add t c cond => if filterKey t c = k then some cond else Option.none
    | _ => Option.none

/-- Whether an optional call adds a condition under key `k`. -/
def optOpAddsKey (o : Option FilterOp) (k : String) : Bool :=
  o.elim false (opAddsKey · k)

/-- Whether some call before index `i` adds a condition under key `k`. -/
def addsBeforeB (ops : List FilterOp) (k : String) (i : Nat) : Bool :=
  (List.range i).any fun j => optOpAddsKey (ops.get? j) k

/-- The claim's notion of a removed key: call `i` removes `k` when it is a
one-column removal of exactly `k`, or a whole-table removal whose `table.`
prefix matches `k` and some earlier call had added a condition under `k`
(`remove_filter` with no column removes the keys then present). -/
def removedAtB (ops : List FilterOp) (k : String) (i : Nat) : Bool :=
  match ops.get? i with
  | some (.removeCol t c) => filterKey t c = k
  | some (.removeTable t) => strStarts (t ++ ".") k && addsBeforeB ops k i
  | _ => false

/-- Whether some call of the sequence removes key `k`. -/
def removedSpecB (ops : List FilterOp) (k : String) : Bool :=
  (List.range ops.length).any (removedAtB ops k)

/-- First-match association lookup (Python dict access by key, the key order
of `filters` being first-insertion order). -/
def lookupKey : List (String × List String) → String → Option (List String)
  | [], _ => Option.none
  | (k', v) :: rest, k => if k' = k then some v else lookupKey rest k

/-- Lower-cased table names appearing in a relationship list: every table the
BFS can ever visit beyond its start. -/
def lowerNames (rels : List TableRelationship) : List String :=
  rels.flatMap fun r => [pyLower r.from_table, pyLower r.to_table]

/-- Only the parenthesis characters of a scan input. -/
def parensOnly (cs : List Char) : List Char :=
  cs.filter fun c => c = '(' || c = ')'

/-- Drop everything inside single- or double-quoted string literals
(delimiters included): `mode` is the currently open quote. -/
def dropQuoted (mode : Option Char) : List Char → List Char
  | [] => []
  | c :: rest =>
      match mode with
      | some q => if c = q then dropQuoted Option.none rest else dropQuoted (some q) rest
      | Option.none =>
          if c = '\'' || c = '"' then dropQuoted (some c) rest
          else c :: dropQuoted Option.none rest

/-- A running-count balance check (never dips negative, ends at zero). -/
def balancedFrom : List Char → Int → Bool
  | [], count => count = 0
  | c :: rest, count =>
      let count' := if c = '(' then count + 1 else if c = ')' then count - 1 else count
      decide (0 ≤ count') && balancedFrom rest count'

/-- The claim's notion for C10: parentheses balanced once characters inside
quoted string literals are ignored. -/
def parensBalancedIgnoringLiterals (s : String) : Bool :=
  balancedFrom (parensOnly (dropQuoted Option.none s.data)) 0

/-- The invariant of the BFS worklist loop of `get_join_path`, seen from
start table `fl` toward target `tl`: queue entries carry genuine chains from
`fl`, visited tables are the discovered ones, entry path lengths are sorted
and within one of the head, fully processed tables have all their active
neighbours discovered, entry paths are shortest, and every table within the
head's distance is already visited. -/
structure BfsInv (rels : List TableRelationship) (fl tl : String)
    (visited : List String) (queue : List (String × List TableRelationship)) : Prop where
  sound : ∀ e ∈ queue, (∀ r ∈ e.2, r ∈ rels) ∧ chainDest fl e.2 = some e.1
  qmem : ∀ e ∈ queue, e.1 ∈ visited ∧ e.1 ≠ tl
  flv : fl ∈ visited
  tlv : tl ∉ visited
  vnodup : visited.Nodup
  vsub : ∀ v ∈ visited, v = fl ∨ v ∈ lowerNames rels
  mono : queue.Pairwise (fun a b => a.2.length ≤ b.2.length)
  span : ∀ e ∈ queue, ∀ e0 ∈ queue.head?, e.2.length ≤ e0.2.length + 1
  closed : ∀ x ∈ visited, x ∉ queue.map Prod.fst →
    ∀ r ∈ rels, r.is_active = true → ∀ m, relNext r x = some m → m ∈ visited
  entryMin : ∀ e ∈ queue, ∀ c, (∀ r ∈ c, r ∈ rels) → chainDest fl c = some e.1 →
    e.2.length ≤ c.length
  reach : ∀ e0 ∈ queue.head?, ∀ (x : String) (c : List TableRelationship),
    (∀ r ∈ c, r ∈ rels) → chainDest fl c = some x →
    c.length ≤ e0.2.length → x ∈ visited

/-! ## Theorems -/

/-- C1: the recursive-descent parser builds precedence low-to-high as
logical-or < logical-and < equality < relational < additive/concat <
multiplicative < unary < power < call/primary, with power right-associative:
one witness expression per adjacent pair of tiers, and the spec's two
examples `1 + 2 * 3` and `2 ^ 3 ^ 2`. -/
theorem dax_parse_precedence :
    parsedAst "1 + 2 * 3" =
      some (.binaryOp (.lit (.int 1) "integer") .ADD
        (.binaryOp (.lit (.int 2) "integer") .MULTIPLY (.lit (.int 3) "integer"))) ∧
    parsedAst "2 ^ 3 ^ 2" =
      some (.binaryOp (.lit (.int 2) "integer") .POWER
        (.binaryOp (.lit (.int 3) "integer") .POWER (.lit (.int 2) "integer"))) ∧
    parsedAst "1 || 2 && 3" =
      some (.binaryOp (.lit (.int 1) "integer") .OR
        (.binaryOp (.lit (.int 2) "integer") .AND (.lit (.int 3) "integer"))) ∧
    parsedAst "1 && 2 = 3" =
      some (.binaryOp (.lit (.int 1) "integer") .AND
        (.binaryOp (.lit (.int 2) "integer") .EQUALS (.lit (.int 3) "integer"))) ∧
    parsedAst "1 = 2 < 3" =
      some (.binaryOp (.lit (.int 1) "integer") .EQUALS
        (.binaryOp (.lit (.int 2) "integer") .LESS_THAN (.lit (.int 3) "integer"))) ∧
    parsedAst "1 < 2 + 3" =
      some (.binaryOp (.lit (.int 1) "integer") .LESS_THAN
        (.binaryOp (.lit (.int 2) "integer") .ADD (.lit (.int 3) "integer"))) ∧
    parsedAst "1 & 2 * 3" =
      some (.binaryOp (.lit (.int 1) "integer") .AMPERSAND
        (.binaryOp (.lit (.int 2) "integer") .MULTIPLY (.lit (.int 3) "integer"))) ∧
    parsedAst "1 * -2" =
      some (.binaryOp (.lit (.int 1) "integer") .MULTIPLY
        (.unaryOp .NEGATE (.lit (.int 2) "integer"))) ∧
    parsedAst "-2 ^ 3" =
      some (.unaryOp .NEGATE
        (.binaryOp (.lit (.int 2) "integer") .POWER (.lit (.int 3) "integer"))) ∧
    parsedAst "2 ^ SUM(Sales[Amount])" =
      some (.binaryOp (.lit (.int 2) "integer") .POWER
        (.func "SUM" [.column (some "Sales") "Amount"])) :=
  ⟨rfl, rfl, rfl, rfl, rfl, rfl, rfl, rfl, rfl, rfl⟩

/-- C2 (code bug): on input `1e5` the INTEGER token pattern
`\d+(?:[eE][+-]?\d+)?` matches the whole lexeme, `_primary` then calls
`int("1e5")`, and the resulting `ValueError` is caught nowhere in `parse`,
so `parse` raises instead of returning a `ParseResult`. -/
theorem dax_parse_valueerror_escape :
    daxParse "1e5" =
      .error (.valueError "invalid literal for int() with base 10: '1e5'") := rfl

/-- C5: `validate_expression` is valid exactly when no ERROR-level issue was
recorded (WARNING/INFO never block), `SUM(amount` is invalid with an
unclosed-parenthesis ERROR, and `col = NULL` is valid with an IS NULL
WARNING. -/
theorem validate_expression_error_blocking :
    (∀ s : String, (validateExpression s).is_valid = true ↔
        ∀ i ∈ (validateExpression s).issues, i.level ≠ .ERROR) ∧
    validateExpression "SUM(amount" =
      ⟨false,
       [⟨.ERROR, "Unbalanced parentheses: 1 unclosed", Option.none, Option.none⟩],
       "SUM(amount", Option.none⟩ ∧
    validateExpression "col = NULL" =
      ⟨true,
       [⟨.WARNING, "Using = NULL instead of IS NULL", Option.none,
         some "Use 'IS NULL' or 'IS NOT NULL' for null comparisons"⟩],
       "col = NULL", Option.none⟩ := by
  refine ⟨fun s => ?_, rfl, rfl⟩
  show (!((validateExpression s).issues.any fun i => i.level = .ERROR)) = true ↔ _
  simp [List.any_eq_true]

/-- C9 counterexample: with a backend that reports an error, the
execution-test stage of `validate` records an ERROR-level issue (not a
WARNING) and `is_valid` is false, refuting "every failure of the
execution-test stage is a WARNING". -/
theorem execution_test_error_level_counterexample :
    validateExec "SELECT 1" (.error "connection refused") =
      ⟨false,
       [⟨.ERROR, "Execution failed: connection refused", Option.none, Option.none⟩],
       "SELECT 1", Option.none⟩ := rfl

/-- C9 as amended: a truthy backend-reported execution failure (a non-empty
`error` field of the `_test_execute` dictionary — `if exec_result.get("error"):`
is a Python truthiness test, so a `None` or empty-string error records
nothing) is recorded as an ERROR that forces `is_valid` false; only an
exception raised by the `_test_execute` call itself is recorded as a WARNING,
which never changes validity — and `_test_execute` cannot raise, since it
catches the backend exception and returns it in the dictionary. -/
theorem execution_test_failure_levels :
    (∀ (sql : String) (res : Option String) (err : String), err ≠ "" →
        (⟨.ERROR, "Execution failed: " ++ err, Option.none, Option.none⟩ : ValidationIssue)
            ∈ (validateWithExecOutcome sql (.ok ⟨res, some err⟩)).issues ∧
        (validateWithExecOutcome sql (.ok ⟨res, some err⟩)).is_valid = false) ∧
    (∀ (sql : String) (res : Option String),
        validateWithExecOutcome sql (.ok ⟨res, some ""⟩)
          = validateWithExecOutcome sql (.ok ⟨res, Option.none⟩)) ∧
    (∀ (sql e : String),
        (⟨.WARNING, "Could not test execution: " ++ e, Option.none, Option.none⟩ : ValidationIssue)
            ∈ (validateWithExecOutcome sql (.error e)).issues ∧
        (validateWithExecOutcome sql (.error e)).is_valid
          = (validateWithExecOutcome sql (.ok ⟨Option.none, Option.none⟩)).is_valid) ∧
    (∀ e : String, (testExecute (.error e)).error = some e) ∧
    (∀ r : String, (testExecute (.ok r)).error = Option.none) := by
  refine ⟨fun sql res err hne => ⟨?_, ?_⟩, fun sql res => rfl,
    fun sql e => ⟨?_, ?_⟩, fun _ => rfl, fun _ => rfl⟩
  · simp [validateWithExecOutcome, hne]
  · simp [validateWithExecOutcome, hne]
  · simp [validateWithExecOutcome]
  · simp [validateWithExecOutcome]

/-- The balanced-parenthesis scan (from a non-negative running count)
reports no issue exactly when the scan of only the parenthesis characters
reports none: every other character, quoted or not, only moves the position
counter. -/
theorem parenScan_empty_iff_filter :
    ∀ (cs : List Char) (count : Int) (i j : Nat), 0 ≤ count →
      (parenScan cs count i = [] ↔ parenScan (parensOnly cs) count j = []) := by
  intro cs
  induction cs with
  | nil => intro count i j _; simp [parenScan, parensOnly]
  | cons c rest ih =>
      intro count i j hc
      by_cases hl : c = '('
      · subst hl
        have hneg : ¬ count + 1 < 0 := by omega
        simp only [parensOnly, List.filter_cons, parenScan, if_pos rfl, reduceIte,
          hneg, if_false]
        exact ih (count + 1) (i + 1) (j + 1) (by omega)
      · by_cases hr : c = ')'
        · subst hr
          simp only [parensOnly, List.filter_cons, parenScan]
          by_cases hneg : count - 1 < 0
          · simp [hneg, parenScan, hl]
          · simp only [hneg, if_false, reduceIte, hl]
            exact ih (count - 1) (i + 1) (j + 1) (by omega)
        · have hfilter : parensOnly (c :: rest) = parensOnly rest := by
            simp [parensOnly, hl, hr]
          have hcount : (if c = '(' then count + 1
              else if c = ')' then count - 1 else count) = count := by
            simp [hl, hr]
          have hscan : parenScan (c :: rest) count i = parenScan rest count (i + 1) := by
            simp only [parenScan, hcount]
            exact if_neg (by omega)
          rw [hscan, hfilter]
          exact ih count (i + 1) j hc

/-- C10: the balanced-parenthesis scan counts every parenthesis character of
the input — its verdict equals the verdict on just the parenthesis
characters, quoted or not — and on `')'`, whose only parenthesis sits inside
a string literal (balanced once literals are ignored), `validate_expression`
reports an unbalanced-parenthesis ERROR and `is_valid` false. -/
theorem paren_scan_counts_quoted_chars :
    (∀ (cs : List Char) (count : Int) (i j : Nat), 0 ≤ count →
        (parenScan cs count i = [] ↔ parenScan (parensOnly cs) count j = [])) ∧
    parensBalancedIgnoringLiterals "')'" = true ∧
    (validateExpression "')'").is_valid = false ∧
    (validateExpression "')'").issues =
      [⟨.ERROR, "Unbalanced parentheses: extra closing parenthesis",
        some "Position 1", Option.none⟩] :=
  ⟨parenScan_empty_iff_filter, rfl, rfl, rfl⟩

/-- Every token kind a lexer pattern can produce. -/
theorem firstMatch_type_mem :
    ∀ (pats : List ((List Char → Option Nat) × TokenType)) (cs : List Char)
      (n : Nat) (ty : TokenType),
      firstMatch pats cs = some (n, ty) → ty ∈ pats.map Prod.snd := by
  intro pats
  induction pats with
  | nil => intro cs n ty h; exact absurd h (by simp [firstMatch])
  | cons p rest ih =>
      intro cs n ty
      obtain ⟨m, pty⟩ := p
      unfold firstMatch
      cases hm : m cs with
      | some k =>
          intro h
          injection h with h'
          injection h' with h1 h2
          rw [← h2]
          exact List.mem_map.mpr ⟨(m, pty), List.mem_cons_self _ _, rfl⟩
      | none =>
          intro h
          exact List.mem_cons_of_mem _ (ih cs n ty h)

/-- Reclassification never yields a structural kind: on a non-EOF base type
the classified type is still not EOF (it is the base type or one of the
keyword kinds). -/
theorem classifyToken_ne_eof (base : TokenType) (v : String) (h : base ≠ .EOF) :
    classifyToken base v ≠ .EOF := by
  unfold classifyToken
  split
  · dsimp only
    repeat' split
    all_goals first | exact h | decide
  · exact h

/-- The scanning loop only ever returns a list of this shape: no whitespace
or comment token survives the filter, and the list is one run of non-EOF
tokens closed by a single EOF token. -/
theorem tokLoop_shape :
    ∀ (fuel : Nat) (cs : List Char) (line col pos : Nat) (ts : List Token),
      tokLoop fuel cs line col pos = .ok ts →
      (∀ t ∈ ts, t.type ≠ .WHITESPACE ∧ t.type ≠ .COMMENT) ∧
      ∃ pre l c p, ts = pre ++ [⟨.EOF, "", l, c, p⟩] ∧ ∀ t ∈ pre, t.type ≠ .EOF := by
  intro fuel
  induction fuel with
  | zero =>
      intro cs line col pos ts h
      exact absurd h (by simp [tokLoop])
  | succ fuel ih =>
      intro cs line col pos ts h
      match cs with
      | [] =>
          simp only [tokLoop] at h
          injection h with h'
          subst h'
          refine ⟨by simp, [], line, col, pos, by simp⟩
      | c :: rest =>
          unfold tokLoop at h
          cases hfm : firstMatch TOKEN_PATTERNS (c :: rest) with
          | none => rw [hfm] at h; exact absurd h (by simp)
          | some v =>
              obtain ⟨n, base⟩ := v
              rw [hfm] at h
              dsimp only at h
              have hbase : base ≠ .EOF := by
                have hmem := firstMatch_type_mem _ _ _ _ hfm
                have hall : ∀ ty ∈ TOKEN_PATTERNS.map Prod.snd, ty ≠ TokenType.EOF := by
                  decide
                exact hall base hmem
              set tokty := classifyToken base (String.mk (List.take n (c :: rest))) with hty
              have htok : tokty ≠ .EOF := classifyToken_ne_eof _ _ hbase
              cases hrec : tokLoop fuel (List.drop n (c :: rest))
                  (if tokty = TokenType.NEWLINE then line + 1 else line)
                  (if tokty = TokenType.NEWLINE then 1
                   else if base = TokenType.NEWLINE then col else col + n)
                  (pos + n) with
              | error e => rw [hrec] at h; exact absurd h (by simp)
              | ok ts' =>
                  rw [hrec] at h
                  dsimp only at h
                  obtain ⟨hall', pre, l, c', p, hts', hpre⟩ := ih _ _ _ _ _ hrec
                  split at h
                  · rename_i hcond
                    injection h with h'
                    subst h'
                    exact ⟨hall', pre, l, c', p, hts', hpre⟩
                  · rename_i hcond
                    have hskip : tokty ≠ TokenType.WHITESPACE ∧ tokty ≠ TokenType.COMMENT := by
                      constructor <;> intro hh <;> exact hcond (by simp [hh])
                    injection h with h'
                    subst h'
                    refine ⟨?_, ⟨tokty, String.mk (List.take n (c :: rest)), line, col, pos⟩ :: pre,
                      l, c', p, by simp [hts'], ?_⟩
                    · intro t ht
                      rcases List.mem_cons.mp ht with rfl | ht'
                      · exact ⟨hskip.1, hskip.2⟩
                      · exact hall' t ht'
                    · intro t ht
                      rcases List.mem_cons.mp ht with rfl | ht'
                      · exact htok
                      · exact hpre t ht'


/-- C4 counterexample: on input `"\n"` the token list `tokenize` returns
contains a NEWLINE token — tokenize discards only whitespace and comment
tokens, not newline tokens. -/
theorem tokenize_newline_token_kept :
    DaxLexer.tokenize "\n" =
      .ok [⟨.NEWLINE, "\n", 1, 1, 0⟩, ⟨.EOF, "", 2, 1, 1⟩] ∧
    ∃ t ∈ ([⟨.NEWLINE, "\n", 1, 1, 0⟩, ⟨.EOF, "", 2, 1, 1⟩] : List Token),
      t.type = .NEWLINE :=
  ⟨rfl, by decide⟩

/-- C4 as amended: for every input that tokenizes successfully, the token
list contains no whitespace or comment token (newline tokens are retained,
advancing the line counter), and ends in exactly one EOF token: the EOF
token is the last element and no earlier token is an EOF. -/
theorem tokenize_stream_shape (s : String) (ts : List Token)
    (h : DaxLexer.tokenize s = .ok ts) :
    (∀ t ∈ ts, t.type ≠ .WHITESPACE ∧ t.type ≠ .COMMENT) ∧
    ∃ pre l c p, ts = pre ++ [⟨.EOF, "", l, c, p⟩] ∧ ∀ t ∈ pre, t.type ≠ .EOF :=
  tokLoop_shape _ _ _ _ _ _ h

/-- Witness for the amended C4 at the input `"1"`. -/
theorem tokenize_stream_shape_witness :
    (∀ t ∈ ([⟨.INTEGER, "1", 1, 1, 0⟩, ⟨.EOF, "", 1, 2, 1⟩] : List Token),
        t.type ≠ .WHITESPACE ∧ t.type ≠ .COMMENT) ∧
    ∃ pre l c p,
      ([⟨.INTEGER, "1", 1, 1, 0⟩, ⟨.EOF, "", 1, 2, 1⟩] : List Token)
        = pre ++ [⟨.EOF, "", l, c, p⟩] ∧ ∀ t ∈ pre, t.type ≠ .EOF :=
  tokenize_stream_shape "1" _ rfl

/-- C8 counterexample: `parse_measure` performs no trailing-token check — on
`[M] = 1 2` the token `2` is left unconsumed before EOF, yet the result
carries an empty error list (success true). -/
theorem parse_measure_trailing_unchecked :
    daxParseMeasure "[M] = 1 2" =
      .ok ⟨.measure "M" (.lit (.int 1) "integer"),
        [⟨.COLUMN_REF, "[M]", 1, 1, 0⟩, ⟨.EQUALS, "=", 1, 5, 4⟩,
         ⟨.INTEGER, "1", 1, 7, 6⟩, ⟨.INTEGER, "2", 1, 9, 8⟩, ⟨.EOF, "", 1, 10, 9⟩],
        "[M] = 1 2", []⟩ ∧
    ParseResult.success ⟨.measure "M" (.lit (.int 1) "integer"),
        [⟨.COLUMN_REF, "[M]", 1, 1, 0⟩, ⟨.EQUALS, "=", 1, 5, 4⟩,
         ⟨.INTEGER, "1", 1, 7, 6⟩, ⟨.INTEGER, "2", 1, 9, 8⟩, ⟨.EOF, "", 1, 10, 9⟩],
        "[M] = 1 2", []⟩ = true ∧
    atEnd [⟨.COLUMN_REF, "[M]", 1, 1, 0⟩, ⟨.EQUALS, "=", 1, 5, 4⟩,
         ⟨.INTEGER, "1", 1, 7, 6⟩, ⟨.INTEGER, "2", 1, 9, 8⟩, ⟨.EOF, "", 1, 10, 9⟩]
        3 = false :=
  ⟨rfl, rfl, rfl⟩

/-- C8 as amended: for `parse`, when the expression rule succeeds with a
non-EOF token remaining, the result records the one trailing-token error
(success false) while carrying the parsed AST, not a placeholder; for
`parse_measure`, once the measure head and expression parse, the result is
returned with an empty error list whatever tokens remain. -/
theorem parse_trailing_token_error (s : String) (toks : List Token)
    (ast : DaxExpr) (i : Nat)
    (hlex : DaxLexer.tokenize s = .ok toks)
    (hparse : parseRun (parserFuel toks) .expression toks 0 = .ok (ast, i))
    (hrem : atEnd toks i = false) :
    daxParse s = .ok ⟨ast, toks, s,
      ["Unexpected token after expression: " ++ (peekTok toks i).value]⟩ ∧
    ParseResult.success ⟨ast, toks, s,
      ["Unexpected token after expression: " ++ (peekTok toks i).value]⟩ = false ∧
    (∀ (src : String) (toks2 : List Token) (expr : DaxExpr) (j : Nat),
        DaxLexer.tokenize src = .ok toks2 →
        checkTok toks2 0 .COLUMN_REF = true →
        matchTok toks2 1 .EQUALS = true →
        parseRun (parserFuel toks2) .expression toks2 2 = .ok (expr, j) →
        daxParseMeasure src =
          .ok ⟨.measure (stripEnds (peekTok toks2 0).value) expr, toks2, src, []⟩) := by
  refine ⟨?_, rfl, ?_⟩
  · unfold daxParse
    simp only [hlex, hparse, hrem, Bool.not_false, if_true, ite_true]
  · intro src toks2 expr j hlex2 hcol heq hparse2
    unfold daxParseMeasure
    simp only [hlex2, hcol, heq, hparse2, Bool.not_true, Bool.false_eq_true, if_false,
      ite_false]

/-- Witness for the amended C8 at the input `"1 2"`. -/
theorem parse_trailing_token_error_witness :
    daxParse "1 2" =
      .ok ⟨.lit (.int 1) "integer",
        [⟨.INTEGER, "1", 1, 1, 0⟩, ⟨.INTEGER, "2", 1, 3, 2⟩, ⟨.EOF, "", 1, 4, 3⟩],
        "1 2", ["Unexpected token after expression: 2"]⟩ :=
  (parse_trailing_token_error "1 2"
    [⟨.INTEGER, "1", 1, 1, 0⟩, ⟨.INTEGER, "2", 1, 3, 2⟩, ⟨.EOF, "", 1, 4, 3⟩]
    (.lit (.int 1) "integer") 1 rfl rfl rfl).1

/-- Unfolding lookup over an explicit head entry. -/
theorem lookupKey_cons (a : String) (b : List String) (rest : List (String × List String))
    (k : String) :
    lookupKey ((a, b) :: rest) k = if a = k then some b else lookupKey rest k := rfl

/-- Key membership in the filters dict equals lookup success. -/
theorem contains_map_fst_eq_lookup (l : List (String × List String)) (k : String) :
    (l.map Prod.fst).contains k = (lookupKey l k).isSome := by
  induction l with
  | nil => rfl
  | cons kv rest ih =>
      obtain ⟨k', v⟩ := kv
      by_cases hk : k' = k
      · rw [List.map_cons, List.contains_cons, lookupKey_cons, if_pos hk]
        simp [hk]
      · have hbeq : (k == k') = false := beq_eq_false_iff_ne.mpr (Ne.symm hk)
        rw [List.map_cons, List.contains_cons, hbeq, Bool.false_or, lookupKey_cons,
          if_neg hk]
        exact ih

/-- Lookup through the append-one-condition update of `add_filter`. -/
theorem lookupKey_map_update (l : List (String × List String)) (key cond k : String) :
    lookupKey (l.map fun kv => if kv.1 = key then (kv.1, kv.2 ++ [cond]) else kv) k =
      if k = key then (lookupKey l k).map (· ++ [cond]) else lookupKey l k := by
  induction l with
  | nil => simp [lookupKey]
  | cons kv rest ih =>
      obtain ⟨k', v⟩ := kv
      simp only [List.map_cons]
      by_cases hkey : k' = key
      · rw [if_pos hkey]
        by_cases hk : k' = k
        · have hk2 : k = key := by rw [← hk, hkey]
          rw [lookupKey_cons, if_pos hk, if_pos hk2, lookupKey_cons, if_pos hk]
          rfl
        · rw [lookupKey_cons, if_neg hk, ih, lookupKey_cons, if_neg hk]
      · rw [if_neg hkey]
        by_cases hk : k' = k
        · have hk2 : ¬ k = key := by rw [← hk]; exact fun h => hkey h
          rw [lookupKey_cons, if_pos hk, if_neg hk2, lookupKey_cons, if_pos hk]
        · rw [lookupKey_cons, if_neg hk, ih, lookupKey_cons, if_neg hk]

/-- Lookup through appending one fresh entry. -/
theorem lookupKey_append_single (l : List (String × List String)) (key k : String)
    (v : List String) :
    lookupKey (l ++ [(key, v)]) k =
      match lookupKey l k with
      | some w => some w
      | Option.none => if key = k then some v else Option.none := by
  induction l with
  | nil => simp [lookupKey]
  | cons kv rest ih =>
      obtain ⟨k', w⟩ := kv
      by_cases hk : k' = k
      · simp [lookupKey, hk]
      · simp [lookupKey, hk, ih]

/-- Lookup through a filter whose predicate depends only on the key. -/
theorem lookupKey_filter_key (p : String → Bool) (l : List (String × List String))
    (k : String) :
    lookupKey (l.filter fun kv => p kv.1) k =
      if p k then lookupKey l k else Option.none := by
  induction l with
  | nil => simp [lookupKey]
  | cons kv rest ih =>
      obtain ⟨k', v⟩ := kv
      by_cases hk : k' = k
      · subst hk
        cases hp : p k' with
        | true => simp [lookupKey, hp, ih]
        | false => simp [lookupKey, hp, ih]
      · cases hp : p k' with
        | true => simp [lookupKey, hp, hk, ih]
        | false => simp [lookupKey, hp, hk, ih]

/-- One call appended to the sequence is one fold step. -/
theorem runFilterOps_snoc (ops : List FilterOp) (op : FilterOp) :
    runFilterOps (ops ++ [op]) = applyFilterOp (runFilterOps ops) op := by
  simp [runFilterOps, List.foldl_append]

/-- Added conditions of a key through one more call. -/
theorem addedConds_snoc (ops : List FilterOp) (op : FilterOp) (k : String) :
    addedConds (ops ++ [op]) k =
      addedConds ops k ++
        (match op with
         | .add t c cond => if filterKey t c = k then [cond] else []
         | _ => []) := by
  cases op with
  | add t c cond =>
      by_cases h : filterKey t c = k <;>
        simp [addedConds, List.filterMap_append, h]
  | removeCol t c => simp [addedConds, List.filterMap_append]
  | removeTable t => simp [addedConds, List.filterMap_append]

/-- `remove_filter` leaves the filters dict untouched. -/
theorem remove_filter_filters (fc : FilterContext) (t : String) (c : Option String) :
    (fc.remove_filter t c).filters = fc.filters := by
  cases c <;> rfl

/-- The filters dict after a call sequence, read by key: exactly the
conditions the add calls put under that key, in order. -/
theorem filters_lookup (ops : List FilterOp) :
    ∀ k, lookupKey (runFilterOps ops).filters k =
      if addedConds ops k = [] then Option.none else some (addedConds ops k) := by
  induction ops using List.reverseRecOn with
  | nil => intro k; rfl
  | append_singleton ops op ih =>
      intro k
      rw [runFilterOps_snoc, addedConds_snoc]
      cases op with
      | removeCol t c =>
          rw [show applyFilterOp (runFilterOps ops) (.removeCol t c)
              = (runFilterOps ops).remove_filter t (some c) from rfl,
            remove_filter_filters]
          dsimp only
          rw [List.append_nil]
          exact ih k
      | removeTable t =>
          rw [show applyFilterOp (runFilterOps ops) (.removeTable t)
              = (runFilterOps ops).remove_filter t Option.none from rfl,
            remove_filter_filters]
          dsimp only
          rw [List.append_nil]
          exact ih k
      | add t c cond =>
          rw [show applyFilterOp (runFilterOps ops) (.add t c cond)
              = (runFilterOps ops).add_filter t c cond from rfl]
          unfold FilterContext.add_filter
          dsimp only
          rw [show (t ++ "." ++ c : String) = filterKey t c from rfl,
            contains_map_fst_eq_lookup]
          by_cases hk : filterKey t c = k
          · subst hk
            cases hl : lookupKey (runFilterOps ops).filters (filterKey t c) with
            | some w =>
                have hconds : addedConds ops (filterKey t c) = w := by
                  have h2 := ih (filterKey t c)
                  rw [hl] at h2
                  by_cases hc : addedConds ops (filterKey t c) = []
                  · rw [if_pos hc] at h2; cases h2
                  · rw [if_neg hc] at h2; exact Option.some.inj h2.symm
                rw [if_pos (show ((some w).isSome = true) by simp)]
                dsimp only
                rw [lookupKey_map_update, if_pos rfl, hl, hconds]
                simp
            | none =>
                have hconds : addedConds ops (filterKey t c) = [] := by
                  have h2 := ih (filterKey t c)
                  rw [hl] at h2
                  by_cases hc : addedConds ops (filterKey t c) = []
                  · exact hc
                  · rw [if_neg hc] at h2; cases h2
                rw [if_neg (show ¬((Option.none : Option (List String)).isSome = true)
                  by simp)]
                dsimp only
                rw [lookupKey_append_single, ih (filterKey t c)]
                rw [if_pos hconds]
                dsimp only
                rw [if_pos rfl]
                simp [hconds]
          · cases hl : lookupKey (runFilterOps ops).filters (filterKey t c) with
            | some w =>
                rw [if_pos (show ((some w).isSome = true) by simp)]
                dsimp only
                rw [lookupKey_map_update, if_neg (fun h => hk h.symm), ih k]
                simp [hk]
            | none =>
                rw [if_neg (show ¬((Option.none : Option (List String)).isSome = true)
                  by simp)]
                dsimp only
                rw [lookupKey_append_single, ih k]
                by_cases hc : addedConds ops k = []
                · rw [if_pos hc]
                  dsimp only
                  rw [if_neg hk]
                  simp [hc, hk]
                · rw [if_neg hc]
                  dsimp only
                  simp [hc, hk]

/-- Congruence for `List.any` under pointwise agreement on members. -/
theorem anyCongrMem {α : Type} (l : List α) (f g : α → Bool)
    (h : ∀ x ∈ l, f x = g x) : l.any f = l.any g := by
  induction l with
  | nil => rfl
  | cons x rest ih =>
      simp only [List.any_cons, h x (List.mem_cons_self x rest),
        ih fun y hy => h y (List.mem_cons_of_mem x hy)]

/-- Membership after inserting into the removed-key set. -/
theorem contains_addRemoved (removed : List String) (x k : String) :
    ((addRemoved removed x).contains k = true) ↔
      (removed.contains k = true ∨ k = x) := by
  unfold addRemoved
  split
  · rename_i h
    constructor
    · exact Or.inl
    · rintro (hh | rfl)
      · exact hh
      · exact h
  · simp [List.mem_append]

/-- Membership after the whole-table removal fold. -/
theorem contains_foldl_addRemoved (keys : List String) :
    ∀ (removed : List String) (k : String),
      ((keys.foldl addRemoved removed).contains k = true) ↔
        (removed.contains k = true ∨ k ∈ keys) := by
  induction keys with
  | nil => intro removed k; simp
  | cons x keys ih =>
      intro removed k
      simp only [List.foldl_cons]
      rw [ih, contains_addRemoved]
      simp [or_assoc]

/-- Added-conditions list unfolded one call at a time. -/
theorem addedConds_cons (op : FilterOp) (rest : List FilterOp) (k : String) :
    addedConds (op :: rest) k =
      (match op with
       | .add t c cond => if filterKey t c = k then [cond] else []
       | _ => []) ++ addedConds rest k := by
  cases op with
  | add t c cond =>
      by_cases h : filterKey t c = k <;> simp [addedConds, List.filterMap_cons, h]
  | removeCol t c => simp [addedConds, List.filterMap_cons]
  | removeTable t => simp [addedConds, List.filterMap_cons]

/-- Some call added under key `k` exactly when the added-conditions list is
nonempty. -/
theorem any_opAddsKey_iff (ops : List FilterOp) (k : String) :
    (∃ op ∈ ops, opAddsKey op k = true) ↔ addedConds ops k ≠ [] := by
  induction ops with
  | nil => simp [addedConds]
  | cons op rest ih =>
      rw [addedConds_cons]
      cases op with
      | add t c cond =>
          by_cases h : filterKey t c = k
          · simp only [if_pos h]
            constructor
            · intro _; simp
            · intro _
              exact ⟨.add t c cond, List.mem_cons_self _ _, by simp [opAddsKey, h]⟩
          · simp only [if_neg h, List.nil_append]
            rw [← ih]
            constructor
            · rintro ⟨op, hop, hadd⟩
              rcases List.mem_cons.mp hop with rfl | hmem
              · simp [opAddsKey, h] at hadd
              · exact ⟨op, hmem, hadd⟩
            · rintro ⟨op, hop, hadd⟩
              exact ⟨op, List.mem_cons_of_mem _ hop, hadd⟩
      | removeCol t c =>
          simp only [List.nil_append]
          rw [← ih]
          constructor
          · rintro ⟨op, hop, hadd⟩
            rcases List.mem_cons.mp hop with rfl | hmem
            · simp [opAddsKey] at hadd
            · exact ⟨op, hmem, hadd⟩
          · rintro ⟨op, hop, hadd⟩
            exact ⟨op, List.mem_cons_of_mem _ hop, hadd⟩
      | removeTable t =>
          simp only [List.nil_append]
          rw [← ih]
          constructor
          · rintro ⟨op, hop, hadd⟩
            rcases List.mem_cons.mp hop with rfl | hmem
            · simp [opAddsKey] at hadd
            · exact ⟨op, hmem, hadd⟩
          · rintro ⟨op, hop, hadd⟩
            exact ⟨op, List.mem_cons_of_mem _ hop, hadd⟩

/-- Whether an earlier call adds `k` is insensitive to calls at or past `i`. -/
theorem addsBeforeB_stable (ops : List FilterOp) (op : FilterOp) (k : String)
    (i : Nat) (hi : i ≤ ops.length) :
    addsBeforeB (ops ++ [op]) k i = addsBeforeB ops k i := by
  unfold addsBeforeB
  apply anyCongrMem
  intro j hj
  rw [List.get?_append (lt_of_lt_of_le (List.mem_range.mp hj) hi)]

/-- Scanning all indices for an add of `k` is the nonemptiness of the
added-conditions list. -/
theorem addsBeforeB_full (ops : List FilterOp) (k : String) :
    (addsBeforeB ops k ops.length = true) ↔ addedConds ops k ≠ [] := by
  unfold addsBeforeB
  rw [← any_opAddsKey_iff]
  simp only [List.any_eq_true, List.mem_range]
  constructor
  · rintro ⟨j, hj, hm⟩
    cases hg : ops.get? j with
    | some x =>
        rw [hg] at hm
        exact ⟨x, List.get?_mem hg, hm⟩
    | none => rw [hg] at hm; simp [optOpAddsKey] at hm
  · rintro ⟨x, hx, hfx⟩
    obtain ⟨j, hg⟩ := List.get?_of_mem hx
    have hj : j < ops.length := by
      by_contra hge
      rw [List.get?_eq_none.mpr (le_of_not_lt hge)] at hg
      cases hg
    exact ⟨j, hj, by rw [hg]; exact hfx⟩

/-- The removal predicate is insensitive to calls after index `i`. -/
theorem removedAtB_prefix (ops : List FilterOp) (op : FilterOp) (k : String)
    (i : Nat) (hi : i < ops.length) :
    removedAtB (ops ++ [op]) k i = removedAtB ops k i := by
  unfold removedAtB
  rw [List.get?_append hi]
  cases hg : ops.get? i with
  | none => rfl
  | some opi =>
      cases opi with
      | add t c cond => rfl
      | removeCol t c => rfl
      | removeTable t =>
          dsimp only
          rw [addsBeforeB_stable ops op k i (le_of_lt hi)]

/-- What the call at the appended index removes. -/
theorem removedAtB_last (ops : List FilterOp) (op : FilterOp) (k : String) :
    (removedAtB (ops ++ [op]) k ops.length = true) ↔
      (match op with
       | .removeCol t c => filterKey t c = k
       | .removeTable t => strStarts (t ++ ".") k = true ∧ addedConds ops k ≠ []
       | .add _ _ _ => False) := by
  unfold removedAtB
  rw [List.get?_concat_length]
  cases op with
  | add t c cond => simp
  | removeCol t c => simp
  | removeTable t =>
      dsimp only
      rw [Bool.and_eq_true, addsBeforeB_stable ops _ k ops.length (le_refl _),
        addsBeforeB_full]

/-- The removed-by-the-claim predicate through one more call. -/
theorem removedSpecB_snoc (ops : List FilterOp) (op : FilterOp) (k : String) :
    (removedSpecB (ops ++ [op]) k = true) ↔
      (removedSpecB ops k = true ∨
        (match op with
         | .removeCol t c => filterKey t c = k
         | .removeTable t => strStarts (t ++ ".") k = true ∧ addedConds ops k ≠ []
         | .add _ _ _ => False)) := by
  unfold removedSpecB
  rw [List.length_append, List.length_singleton, List.range_succ, List.any_append]
  rw [anyCongrMem (List.range ops.length) (removedAtB (ops ++ [op]) k)
    (removedAtB ops k) fun j hj => removedAtB_prefix ops op k j (List.mem_range.mp hj)]
  simp only [List.any_cons, List.any_nil, Bool.or_false, Bool.or_eq_true]
  rw [removedAtB_last]

/-- The removed-key set after a call sequence holds exactly the keys the
claim counts as removed. -/
theorem removed_contains_iff (ops : List FilterOp) :
    ∀ k, ((runFilterOps ops).removed_filters.contains k = true) ↔
      removedSpecB ops k = true := by
  induction ops using List.reverseRecOn with
  | nil =>
      intro k
      simp [runFilterOps, emptyFilterContext, removedSpecB]
  | append_singleton ops op ih =>
      intro k
      rw [runFilterOps_snoc, removedSpecB_snoc]
      cases op with
      | add t c cond =>
          have hrm : (applyFilterOp (runFilterOps ops) (.add t c cond)).removed_filters
              = (runFilterOps ops).removed_filters := by
            show ((runFilterOps ops).add_filter t c cond).removed_filters = _
            unfold FilterContext.add_filter
            dsimp only
            split <;> rfl
          rw [hrm]
          dsimp only
          simp only [or_false]
          exact ih k
      | removeCol t c =>
          have hrm : (applyFilterOp (runFilterOps ops) (.removeCol t c)).removed_filters
              = addRemoved (runFilterOps ops).removed_filters (filterKey t c) := by
            show ((runFilterOps ops).remove_filter t (some c)).removed_filters = _
            unfold FilterContext.remove_filter
            rfl
          rw [hrm, contains_addRemoved]
          dsimp only
          constructor
          · rintro (h | h)
            · exact Or.inl ((ih k).mp h)
            · exact Or.inr h.symm
          · rintro (h | h)
            · exact Or.inl ((ih k).mpr h)
            · exact Or.inr h.symm
      | removeTable t =>
          have hrm : (applyFilterOp (runFilterOps ops) (.removeTable t)).removed_filters
              = (((runFilterOps ops).filters.map Prod.fst).filter
                  (fun key => strStarts (t ++ ".") key)).foldl addRemoved
                  (runFilterOps ops).removed_filters := by
            show ((runFilterOps ops).remove_filter t Option.none).removed_filters = _
            unfold FilterContext.remove_filter
            rfl
          rw [hrm, contains_foldl_addRemoved]
          dsimp only
          have hkeys : k ∈ ((runFilterOps ops).filters.map Prod.fst).filter
              (fun key => strStarts (t ++ ".") key) ↔
              (strStarts (t ++ ".") k = true ∧ addedConds ops k ≠ []) := by
            rw [List.mem_filter]
            constructor
            · rintro ⟨hmem, hpre⟩
              refine ⟨hpre, ?_⟩
              have hc : ((runFilterOps ops).filters.map Prod.fst).contains k = true := by
                simpa using hmem
              rw [contains_map_fst_eq_lookup, filters_lookup ops k] at hc
              by_cases hcc : addedConds ops k = []
              · rw [if_pos hcc] at hc; cases hc
              · exact hcc
            · rintro ⟨hpre, hadd⟩
              refine ⟨?_, hpre⟩
              have hc : ((runFilterOps ops).filters.map Prod.fst).contains k = true := by
                rw [contains_map_fst_eq_lookup, filters_lookup ops k, if_neg hadd]
                rfl
              simpa using hc
          rw [hkeys]
          constructor
          · rintro (h | h)
            · exact Or.inl ((ih k).mp h)
            · exact Or.inr h
          · rintro (h | h)
            · exact Or.inl ((ih k).mpr h)
            · exact Or.inr h

/-- C7: after any sequence of add/remove calls on a fresh `FilterContext`,
the effective filters hold exactly the added conditions of each key no call
ever removed (one-column removals blacklist the key outright; whole-table
removals remove the table's keys present at the time), and the WHERE clause
is the `" AND "`-join of all effective conditions, empty when none remain. -/
theorem filter_context_effective_filters (ops : List FilterOp) :
    (∀ k, lookupKey (runFilterOps ops).get_effective_filters k =
        if removedSpecB ops k = true ∨ addedConds ops k = [] then Option.none
        else some (addedConds ops k)) ∧
    (runFilterOps ops).to_where_clause =
      pyJoin " AND " ((runFilterOps ops).get_effective_filters.map Prod.snd).flatten ∧
    ((runFilterOps ops).get_effective_filters = [] →
      (runFilterOps ops).to_where_clause = "") := by
  refine ⟨fun k => ?_, ?_, fun h => ?_⟩
  · unfold FilterContext.get_effective_filters
    rw [lookupKey_filter_key (fun key => !(runFilterOps ops).removed_filters.contains key)]
    by_cases hrem : (runFilterOps ops).removed_filters.contains k = true
    · have hspec := (removed_contains_iff ops k).mp hrem
      rw [hrem]
      simp only [Bool.not_true, Bool.false_eq_true, if_false, reduceIte]
      rw [if_pos (Or.inl hspec)]
    · have hfalse : (runFilterOps ops).removed_filters.contains k = false :=
        Bool.not_eq_true _ ▸ eq_false_of_ne_true hrem
      have hspec : ¬ removedSpecB ops k = true :=
        fun hh => hrem ((removed_contains_iff ops k).mpr hh)
      rw [hfalse]
      simp only [Bool.not_false, if_true, reduceIte]
      rw [filters_lookup ops k]
      by_cases hadd : addedConds ops k = []
      · rw [if_pos hadd, if_pos (Or.inr hadd)]
      · rw [if_neg hadd, if_neg ?_]
        rintro (hh | hh)
        · exact hspec hh
        · exact hadd hh
  · unfold FilterContext.to_where_clause
    dsimp only
    split
    · rename_i hemp
      have h0 : (runFilterOps ops).get_effective_filters = [] := by
        simpa using hemp
      rw [h0]
      rfl
    · rfl
  · simp [FilterContext.to_where_clause, h]

/-- Chains compose: the destination through `p ++ q` is the destination
through `q` from the destination through `p`. -/
theorem chainDest_append (p : List TableRelationship) :
    ∀ (q : List TableRelationship) (a : String),
      chainDest a (p ++ q) = (chainDest a p).bind (fun b => chainDest b q) := by
  induction p with
  | nil => intro q a; rfl
  | cons r rest ih =>
      intro q a
      show chainDest a (r :: (rest ++ q)) = (chainDest a (r :: rest)).bind _
      by_cases hact : r.is_active = true
      · cases hnx : relNext r a with
        | some b =>
            simp only [chainDest, hact, hnx, if_true, reduceIte]
            exact ih q b
        | none => simp [chainDest, hact, hnx]
      · simp [chainDest, hact]

/-- Every relationship a chain traverses is active. -/
theorem chainDest_active (p : List TableRelationship) :
    ∀ (a b : String), chainDest a p = some b → ∀ r ∈ p, r.is_active = true := by
  induction p with
  | nil => intro a b _ r hr; cases hr
  | cons r0 rest ih =>
      intro a b h r hr
      unfold chainDest at h
      split at h
      · rename_i hact
        cases hnx : relNext r0 a with
        | some y =>
            rw [hnx] at h
            rcases List.mem_cons.mp hr with rfl | hmem
            · exact hact
            · exact ih y b h r hmem
        | none => rw [hnx] at h; cases h
      · cases h

/-- A neighbour through a relationship is one of its two lower-cased table
names. -/
theorem relNext_mem_lower (r : TableRelationship) (a m : String)
    (h : relNext r a = some m) :
    m = pyLower r.from_table ∨ m = pyLower r.to_table := by
  unfold relNext at h
  split at h
  · exact Or.inr (Option.some.inj h).symm
  · split at h
    · exact Or.inl (Option.some.inj h).symm
    · cases h

/-- A set of tables closed under active adjacency swallows every chain that
starts inside it. -/
theorem chain_closed (rels : List TableRelationship) (V : List String)
    (hcl : ∀ x ∈ V, ∀ r ∈ rels, r.is_active = true → ∀ m, relNext r x = some m → m ∈ V) :
    ∀ (p : List TableRelationship) (a b : String),
      a ∈ V → (∀ r ∈ p, r ∈ rels) → chainDest a p = some b → b ∈ V := by
  intro p
  induction p with
  | nil => intro a b ha _ h; cases h; exact ha
  | cons r rest ih =>
      intro a b ha hsub h
      unfold chainDest at h
      split at h
      · rename_i hact
        cases hnx : relNext r a with
        | some y =>
            rw [hnx] at h
            have hy : y ∈ V := hcl a ha r (hsub r (List.mem_cons_self _ _)) hact y hnx
            exact ih y b hy (fun r' hr' => hsub r' (List.mem_cons_of_mem _ hr')) h
        | none => rw [hnx] at h; cases h
      · cases h

/-- What a scan step returns when it finds the target. -/
theorem bfsScan_inl (tl current : String) (path : List TableRelationship) :
    ∀ (rs : List TableRelationship) (visited : List String)
      (queue : List (String × List TableRelationship)) (res : List TableRelationship),
      bfsScan tl current path rs visited queue = .inl res →
      ∃ r ∈ rs, r.is_active = true ∧ relNext r current = some tl ∧ res = path ++ [r] := by
  intro rs
  induction rs with
  | nil => intro visited queue res h; cases h
  | cons r rest ih =>
      intro visited queue res h
      unfold bfsScan at h
      split at h
      · obtain ⟨r', hr', hres⟩ := ih _ _ _ h
        exact ⟨r', List.mem_cons_of_mem _ hr', hres⟩
      · rename_i hact
        cases hnx : relNext r current with
        | none =>
            rw [hnx] at h
            obtain ⟨r', hr', hres⟩ := ih _ _ _ h
            exact ⟨r', List.mem_cons_of_mem _ hr', hres⟩
        | some nt =>
            rw [hnx] at h
            dsimp only at h
            split at h
            · obtain ⟨r', hr', hres⟩ := ih _ _ _ h
              exact ⟨r', List.mem_cons_of_mem _ hr', hres⟩
            · split at h
              · rename_i hnt
                injection h with h'
                subst h'
                subst hnt
                exact ⟨r, List.mem_cons_self _ _, Bool.not_not_eq.mp (by simpa using hact),
                       hnx, rfl⟩
              · obtain ⟨r', hr', hres⟩ := ih _ _ _ h
                exact ⟨r', List.mem_cons_of_mem _ hr', hres⟩

/-- What a scan step does when it does not find the target: it appends a
block of new queue entries, one per newly discovered neighbour, marking each
visited; afterwards every active neighbour of the scanned node is visited. -/
theorem bfsScan_inr (tl current : String) (path : List TableRelationship) :
    ∀ (rs : List TableRelationship) (visited : List String)
      (queue : List (String × List TableRelationship))
      (v' : List String) (q' : List (String × List TableRelationship)),
      bfsScan tl current path rs visited queue = .inr (v', q') →
      ∃ news : List (String × List TableRelationship),
        v' = visited ++ news.map Prod.fst ∧
        q' = queue ++ news ∧
        (∀ e ∈ news, ∃ r ∈ rs, r.is_active = true ∧ relNext r current = some e.1 ∧
            e.2 = path ++ [r] ∧ e.1 ≠ tl ∧ e.1 ∉ visited) ∧
        (news.map Prod.fst).Nodup ∧
        (∀ r ∈ rs, r.is_active = true → ∀ m, relNext r current = some m → m ∈ v') := by
  intro rs
  induction rs with
  | nil =>
      intro visited queue v' q' h
      injection h with h'
      injection h' with h1 h2
      subst h1; subst h2
      exact ⟨[], by simp, by simp, by simp, by simp, by simp⟩
  | cons r rest ih =>
      intro visited queue v' q' h
      unfold bfsScan at h
      split at h
      · rename_i hact
        obtain ⟨news, hv, hq, hprops, hnd, hclo⟩ := ih _ _ _ _ h
        refine ⟨news, hv, hq, ?_, hnd, ?_⟩
        · intro e he
          obtain ⟨r', hr', hrest⟩ := hprops e he
          exact ⟨r', List.mem_cons_of_mem _ hr', hrest⟩
        · intro r' hr' hact' m hm
          rcases List.mem_cons.mp hr' with rfl | hmem
          · exact absurd hact' (by simpa using hact)
          · exact hclo r' hmem hact' m hm
      · rename_i hact
        have hactive : r.is_active = true := by simpa using hact
        cases hnx : relNext r current with
        | none =>
            rw [hnx] at h
            dsimp only at h
            obtain ⟨news, hv, hq, hprops, hnd, hclo⟩ := ih _ _ _ _ h
            refine ⟨news, hv, hq, ?_, hnd, ?_⟩
            · intro e he
              obtain ⟨r', hr', hrest⟩ := hprops e he
              exact ⟨r', List.mem_cons_of_mem _ hr', hrest⟩
            · intro r' hr' hact' m hm
              rcases List.mem_cons.mp hr' with rfl | hmem
              · rw [hm] at hnx; cases hnx
              · exact hclo r' hmem hact' m hm
        | some nt =>
            rw [hnx] at h
            dsimp only at h
            split at h
            · rename_i hvis
              obtain ⟨news, hv, hq, hprops, hnd, hclo⟩ := ih _ _ _ _ h
              refine ⟨news, hv, hq, ?_, hnd, ?_⟩
              · intro e he
                obtain ⟨r', hr', hrest⟩ := hprops e he
                exact ⟨r', List.mem_cons_of_mem _ hr', hrest⟩
              · intro r' hr' hact' m hm
                rcases List.mem_cons.mp hr' with rfl | hmem
                · have hmnt : m = nt := by
                    rw [hm] at hnx; exact Option.some.inj hnx
                  subst hmnt
                  rw [hv]
                  exact List.mem_append_left _ (by simpa using hvis)
                · exact hclo r' hmem hact' m hm
            · rename_i hvis
              split at h
              · cases h
              · rename_i hnt
                obtain ⟨news', hv, hq, hprops, hnd, hclo⟩ := ih _ _ _ _ h
                have hntvis : nt ∉ visited := by simpa using hvis
                refine ⟨(nt, path ++ [r]) :: news', ?_, ?_, ?_, ?_, ?_⟩
                · rw [hv]; simp
                · rw [hq]; simp
                · intro e he
                  rcases List.mem_cons.mp he with rfl | hmem
                  · exact ⟨r, List.mem_cons_self _ _, hactive, hnx, rfl, hnt, hntvis⟩
                  · obtain ⟨r', hr', hact', hnx', he2, hne, hnv⟩ := hprops e hmem
                    refine ⟨r', List.mem_cons_of_mem _ hr', hact', hnx', he2, hne, ?_⟩
                    intro hmm
                    exact hnv (List.mem_append_left _ hmm)
                · rw [List.map_cons]
                  refine List.nodup_cons.mpr ⟨?_, hnd⟩
                  intro hmm
                  obtain ⟨e, he, hfst⟩ := List.mem_map.mp hmm
                  obtain ⟨_, _, _, _, _, _, hnv⟩ := hprops e he
                  exact hnv (List.mem_append_right _ (by simp [hfst]))
                · intro r' hr' hact' m hm
                  rcases List.mem_cons.mp hr' with rfl | hmem
                  · have hmnt : m = nt := by
                      rw [hm] at hnx; exact Option.some.inj hnx
                    subst hmnt
                    rw [hv]
                    exact List.mem_append_left _ (List.mem_append_right _ (by simp))
                  · exact hclo r' hmem hact' m hm

/-- Two lower-cased names per relationship. -/
theorem length_lowerNames (rels : List TableRelationship) :
    (lowerNames rels).length = 2 * rels.length := by
  induction rels with
  | nil => rfl
  | cons r rest ih =>
      show ([pyLower r.from_table, pyLower r.to_table] ++ lowerNames rest).length = _
      rw [List.length_append, ih]
      simp
      omega

/-- A duplicate-free list of visited tables is no longer than the start table
plus both ends of every relationship. -/
theorem visited_le (rels : List TableRelationship) (fl : String)
    (visited : List String) (hnd : visited.Nodup)
    (hsub : ∀ v ∈ visited, v = fl ∨ v ∈ lowerNames rels) :
    visited.length ≤ 2 * rels.length + 1 := by
  have hsub' : visited ⊆ fl :: lowerNames rels := by
    intro v hv
    rcases hsub v hv with rfl | h
    · exact List.mem_cons_self _ _
    · exact List.mem_cons_of_mem _ h
  have := (List.subperm_of_subset hnd hsub').length_le
  rw [List.length_cons, length_lowerNames] at this
  omega

/-- A list whose entries all have one length is pairwise ordered by length. -/
theorem pairwiseConstLen (n : Nat) :
    ∀ (l : List (String × List TableRelationship)),
      (∀ e ∈ l, e.2.length = n) →
      l.Pairwise (fun a b => a.2.length ≤ b.2.length) := by
  intro l
  induction l with
  | nil => intro _; exact List.Pairwise.nil
  | cons e rest ih =>
      intro h
      refine List.Pairwise.cons ?_ (ih fun e' he' => h e' (List.mem_cons_of_mem _ he'))
      intro e' he'
      rw [h e (List.mem_cons_self _ _), h e' (List.mem_cons_of_mem _ he')]

/-- The BFS worklist loop, run from a state satisfying the invariant with
enough fuel, returns a shortest chain to the target whenever one exists. -/
theorem bfsLoop_correct (rels : List TableRelationship) (fl tl : String) :
    ∀ (fuel : Nat) (visited : List String)
      (queue : List (String × List TableRelationship)),
      BfsInv rels fl tl visited queue →
      2 * rels.length + 1 - visited.length + queue.length < fuel →
      (∃ c, (∀ r ∈ c, r ∈ rels) ∧ chainDest fl c = some tl) →
      (∀ r ∈ bfsLoop rels tl fuel visited queue, r ∈ rels) ∧
      chainDest fl (bfsLoop rels tl fuel visited queue) = some tl ∧
      ∀ c, (∀ r ∈ c, r ∈ rels) → chainDest fl c = some tl →
        (bfsLoop rels tl fuel visited queue).length ≤ c.length := by
  intro fuel
  induction fuel with
  | zero => intro visited queue _ hfuel _; exact absurd hfuel (Nat.not_lt_zero _)
  | succ fuel ih =>
      intro visited queue inv hfuel hex
      rcases queue with _ | ⟨⟨current, path⟩, qrest⟩
      · exfalso
        obtain ⟨c, hcsub, hcd⟩ := hex
        refine inv.tlv (chain_closed rels visited ?_ c fl tl inv.flv hcsub hcd)
        intro x hx r hr hract m hm
        exact inv.closed x hx (by simp) r hr hract m hm
      · cases hscan : bfsScan tl current path rels visited qrest with
        | inl found =>
            have hstep : bfsLoop rels tl (fuel + 1) visited ((current, path) :: qrest)
                = found := by
              unfold bfsLoop
              rw [hscan]
            rw [hstep]
            obtain ⟨r, hrmem, hract, hrnx, hres⟩ :=
              bfsScan_inl tl current path rels visited qrest found hscan
            have hhead := inv.sound (current, path) (List.mem_cons_self _ _)
            have hchain : chainDest fl found = some tl := by
              rw [hres, chainDest_append, hhead.2, Option.some_bind]
              unfold chainDest
              rw [if_pos hract, hrnx]
              rfl
            refine ⟨?_, hchain, ?_⟩
            · intro r' hr'
              rw [hres] at hr'
              rcases List.mem_append.mp hr' with hmem | hmem
              · exact hhead.1 r' hmem
              · rw [List.mem_singleton.mp hmem]; exact hrmem
            · intro c hcsub hcd
              by_contra hlt
              push_neg at hlt
              have hlen : found.length = path.length + 1 := by rw [hres]; simp
              exact inv.tlv (inv.reach (current, path) (Option.mem_def.mpr rfl) tl c
                hcsub hcd (show c.length ≤ path.length by omega))
        | inr vq =>
            obtain ⟨v', q'⟩ := vq
            have hstep : bfsLoop rels tl (fuel + 1) visited ((current, path) :: qrest)
                = bfsLoop rels tl fuel v' q' := by
              conv_lhs => unfold bfsLoop
              rw [hscan]
            rw [hstep]
            obtain ⟨news, hveq, hqeq, hprops, hnewsnd, hclo⟩ :=
              bfsScan_inr tl current path rels visited qrest v' q' hscan
            have hhead := inv.sound (current, path) (List.mem_cons_self _ _)
            have hnewslen : ∀ e ∈ news, e.2.length = path.length + 1 := by
              intro e he
              obtain ⟨r, _, _, _, he2, _, _⟩ := hprops e he
              rw [he2]; simp
            have hvsubset : ∀ x ∈ visited, x ∈ v' := by
              intro x hx; rw [hveq]; exact List.mem_append_left _ hx
            have hnewsmem : ∀ e ∈ news, e.1 ∈ v' := by
              intro e he; rw [hveq]
              exact List.mem_append_right _ (List.mem_map_of_mem _ he)
            have hsound' : ∀ e ∈ q', (∀ r' ∈ e.2, r' ∈ rels) ∧
                chainDest fl e.2 = some e.1 := by
              intro e he
              rw [hqeq] at he
              rcases List.mem_append.mp he with hmem | hmem
              · exact inv.sound e (List.mem_cons_of_mem _ hmem)
              · obtain ⟨r, hr, hract, hrnx, he2, hne, hnv⟩ := hprops e hmem
                constructor
                · intro r' hr'
                  rw [he2] at hr'
                  rcases List.mem_append.mp hr' with h1 | h1
                  · exact hhead.1 r' h1
                  · rw [List.mem_singleton.mp h1]; exact hr
                · rw [he2, chainDest_append, hhead.2, Option.some_bind]
                  unfold chainDest
                  rw [if_pos hract, hrnx]
                  rfl
            have hqmem' : ∀ e ∈ q', e.1 ∈ v' ∧ e.1 ≠ tl := by
              intro e he
              rw [hqeq] at he
              rcases List.mem_append.mp he with hmem | hmem
              · obtain ⟨h1, h2⟩ := inv.qmem e (List.mem_cons_of_mem _ hmem)
                exact ⟨hvsubset _ h1, h2⟩
              · obtain ⟨r, _, _, _, _, hne, _⟩ := hprops e hmem
                exact ⟨hnewsmem e hmem, hne⟩
            have hflv' : fl ∈ v' := hvsubset fl inv.flv
            have htlv' : tl ∉ v' := by
              rw [hveq]
              intro hmm
              rcases List.mem_append.mp hmm with h1 | h1
              · exact inv.tlv h1
              · obtain ⟨e, he, hf⟩ := List.mem_map.mp h1
                obtain ⟨_, _, _, _, _, hne, _⟩ := hprops e he
                exact hne hf
            have hnodup' : v'.Nodup := by
              rw [hveq]
              refine List.Nodup.append inv.vnodup hnewsnd ?_
              intro x hx hx2
              obtain ⟨e, he, hf⟩ := List.mem_map.mp hx2
              obtain ⟨_, _, _, _, _, _, hnv⟩ := hprops e he
              exact hnv (hf ▸ hx)
            have hvsub' : ∀ v ∈ v', v = fl ∨ v ∈ lowerNames rels := by
              intro v hv2
              rw [hveq] at hv2
              rcases List.mem_append.mp hv2 with h1 | h1
              · exact inv.vsub v h1
              · obtain ⟨e, he, hf⟩ := List.mem_map.mp h1
                obtain ⟨r, hr, _, hrnx, _, _, _⟩ := hprops e he
                right
                rw [← hf]
                rcases relNext_mem_lower r current e.1 hrnx with h2 | h2 <;>
                  (rw [h2]
                   simp only [lowerNames, List.mem_flatMap]
                   exact ⟨r, hr, by simp⟩)
            have hspanOld : ∀ e ∈ qrest, e.2.length ≤ path.length + 1 := fun e he =>
              inv.span e (List.mem_cons_of_mem _ he) (current, path)
                (Option.mem_def.mpr rfl)
            have hmonoOld : ∀ e ∈ qrest, path.length ≤ e.2.length := fun e he =>
              (List.pairwise_cons.mp inv.mono).1 e he
            have hmono' : q'.Pairwise (fun a b => a.2.length ≤ b.2.length) := by
              rw [hqeq, List.pairwise_append]
              refine ⟨(List.pairwise_cons.mp inv.mono).2,
                pairwiseConstLen (path.length + 1) news hnewslen, ?_⟩
              intro a ha b hb
              rw [hnewslen b hb]
              exact hspanOld a ha
            have hspan' : ∀ e ∈ q', ∀ e0 ∈ q'.head?, e.2.length ≤ e0.2.length + 1 := by
              intro e he e0 he0
              have he0mem : e0 ∈ q' := by
                have h0 := Option.mem_def.mp he0
                rcases q' with _ | ⟨a0, tail0⟩
                · cases h0
                · rw [Option.some.inj h0] at *
                  exact List.mem_cons_self _ _
              have he0len : path.length ≤ e0.2.length := by
                rw [hqeq] at he0mem
                rcases List.mem_append.mp he0mem with h1 | h1
                · exact hmonoOld e0 h1
                · rw [hnewslen e0 h1]; omega
              have helen : e.2.length ≤ path.length + 1 := by
                rw [hqeq] at he
                rcases List.mem_append.mp he with h1 | h1
                · exact hspanOld e h1
                · rw [hnewslen e h1]
              omega
            have hclosed' : ∀ x ∈ v', x ∉ q'.map Prod.fst →
                ∀ r ∈ rels, r.is_active = true →
                ∀ m, relNext r x = some m → m ∈ v' := by
              intro x hx hnq r hr hract m hm
              rw [hveq] at hx
              rcases List.mem_append.mp hx with h1 | h1
              · by_cases hxc : x = current
                · subst hxc
                  exact hclo r hr hract m hm
                · have hxold : x ∉ ((current, path) :: qrest).map Prod.fst := by
                    intro hmm
                    rw [List.map_cons] at hmm
                    rcases List.mem_cons.mp hmm with h2 | h2
                    · exact hxc h2
                    · apply hnq
                      rw [hqeq, List.map_append]
                      exact List.mem_append_left _ h2
                  exact hvsubset m (inv.closed x h1 hxold r hr hract m hm)
              · exfalso
                apply hnq
                rw [hqeq, List.map_append]
                exact List.mem_append_right _ h1
            have hentryMin' : ∀ e ∈ q', ∀ c, (∀ r ∈ c, r ∈ rels) →
                chainDest fl c = some e.1 → e.2.length ≤ c.length := by
              intro e he c hcsub hcd
              rw [hqeq] at he
              rcases List.mem_append.mp he with h1 | h1
              · exact inv.entryMin e (List.mem_cons_of_mem _ h1) c hcsub hcd
              · rw [hnewslen e h1]
                by_contra hlt
                push_neg at hlt
                obtain ⟨_, _, _, _, _, _, hnv⟩ := hprops e h1
                exact hnv (inv.reach (current, path) (Option.mem_def.mpr rfl) e.1 c
                  hcsub hcd (show c.length ≤ path.length by omega))
            have hreach' : ∀ e0 ∈ q'.head?, ∀ (x : String) (c : List TableRelationship),
                (∀ r ∈ c, r ∈ rels) → chainDest fl c = some x →
                c.length ≤ e0.2.length → x ∈ v' := by
              intro e0 he0 x c hcsub hcd hclen
              obtain ⟨tail, htail⟩ : ∃ tail, q' = e0 :: tail := by
                have h0 := Option.mem_def.mp he0
                rcases q' with _ | ⟨a0, tail0⟩
                · cases h0
                · exact ⟨tail0, by rw [Option.some.inj h0]⟩
              have he0mem : e0 ∈ q' := by rw [htail]; exact List.mem_cons_self _ _
              have he0le : e0.2.length ≤ path.length + 1 := by
                rw [hqeq] at he0mem
                rcases List.mem_append.mp he0mem with h1 | h1
                · exact hspanOld e0 h1
                · rw [hnewslen e0 h1]
              by_cases hcp : c.length ≤ path.length
              · exact hvsubset x (inv.reach (current, path) (Option.mem_def.mpr rfl)
                  x c hcsub hcd hcp)
              · have hclen1 : c.length = path.length + 1 := by omega
                rcases List.eq_nil_or_concat c with rfl | ⟨c1, rr, hcc⟩
                · rw [List.length_nil] at hclen1
                  exact absurd hclen1 (by omega)
                · rw [List.concat_eq_append] at hcc
                  subst hcc
                  rw [List.length_append, List.length_cons, List.length_nil] at hclen1
                  rw [List.length_append, List.length_cons, List.length_nil] at hclen
                  have hc1len : c1.length = path.length := by omega
                  have hc1sub : ∀ r' ∈ c1, r' ∈ rels := fun r' hr' =>
                    hcsub r' (List.mem_append_left _ hr')
                  rw [chainDest_append] at hcd
                  cases hmid : chainDest fl c1 with
                  | none => rw [hmid, Option.none_bind] at hcd; cases hcd
                  | some y =>
                      rw [hmid, Option.some_bind] at hcd
                      have hy : y ∈ visited :=
                        inv.reach (current, path) (Option.mem_def.mpr rfl) y c1
                          hc1sub hmid (show c1.length ≤ path.length by omega)
                      have hstep2 : rr.is_active = true ∧ relNext rr y = some x := by
                        unfold chainDest at hcd
                        split at hcd
                        · rename_i hact2
                          cases hnx2 : relNext rr y with
                          | some z =>
                              rw [hnx2] at hcd
                              exact ⟨hact2, congrArg some (Option.some.inj hcd)⟩
                          | none =>
                              rw [hnx2] at hcd
                              exact Option.noConfusion hcd
                        · cases hcd
                      by_cases hyq : y ∈ q'.map Prod.fst
                      · exfalso
                        obtain ⟨e, he, hef⟩ := List.mem_map.mp hyq
                        have hemin : e.2.length ≤ c1.length :=
                          hentryMin' e he c1 hc1sub (by rw [hef]; exact hmid)
                        have hge : e0.2.length ≤ e.2.length := by
                          have hepw := hmono'
                          rw [htail] at hepw
                          have hemem : e ∈ e0 :: tail := by rw [← htail]; exact he
                          rcases List.mem_cons.mp hemem with heq2 | htl2
                          · rw [heq2]
                          · exact (List.pairwise_cons.mp hepw).1 e htl2
                        omega
                      · exact hclosed' y (hvsubset y hy) hyq rr
                          (hcsub rr (List.mem_append_right _ (List.mem_singleton_self _)))
                          hstep2.1 x hstep2.2
            have hlv : v'.length = visited.length + news.length := by
              rw [hveq]; simp
            have hlq : q'.length = qrest.length + news.length := by
              rw [hqeq]; simp
            have hvle : v'.length ≤ 2 * rels.length + 1 :=
              visited_le rels fl v' hnodup' hvsub'
            have hf0 : 2 * rels.length + 1 - visited.length + (qrest.length + 1)
                < fuel + 1 := by
              simpa using hfuel
            exact ih v' q'
              ⟨hsound', hqmem', hflv', htlv', hnodup', hvsub', hmono', hspan',
               hclosed', hentryMin', hreach'⟩
              (by omega) hex

/-- Whatever the BFS loop returns, if non-empty, is a genuine active chain of
relationships from the start to the target — only queue soundness is needed. -/
theorem bfsLoop_sound (rels : List TableRelationship) (fl tl : String) :
    ∀ (fuel : Nat) (visited : List String)
      (queue : List (String × List TableRelationship)),
      (∀ e ∈ queue, (∀ r ∈ e.2, r ∈ rels) ∧ chainDest fl e.2 = some e.1) →
      bfsLoop rels tl fuel visited queue ≠ [] →
      (∀ r ∈ bfsLoop rels tl fuel visited queue, r ∈ rels) ∧
      chainDest fl (bfsLoop rels tl fuel visited queue) = some tl := by
  intro fuel
  induction fuel with
  | zero => intro visited queue _ hne; exact absurd rfl hne
  | succ fuel ih =>
      intro visited queue hsound hne
      rcases queue with _ | ⟨⟨current, path⟩, qrest⟩
      · exact absurd rfl hne
      · cases hscan : bfsScan tl current path rels visited qrest with
        | inl found =>
            have hstep : bfsLoop rels tl (fuel + 1) visited ((current, path) :: qrest)
                = found := by
              conv_lhs => unfold bfsLoop
              rw [hscan]
            rw [hstep]
            obtain ⟨r, hrmem, hract, hrnx, hres⟩ :=
              bfsScan_inl tl current path rels visited qrest found hscan
            have hhead := hsound (current, path) (List.mem_cons_self _ _)
            refine ⟨?_, ?_⟩
            · intro r' hr'
              rw [hres] at hr'
              rcases List.mem_append.mp hr' with hmem | hmem
              · exact hhead.1 r' hmem
              · rw [List.mem_singleton.mp hmem]; exact hrmem
            · rw [hres, chainDest_append, hhead.2, Option.some_bind]
              unfold chainDest
              rw [if_pos hract, hrnx]
              rfl
        | inr vq =>
            obtain ⟨v', q'⟩ := vq
            have hstep : bfsLoop rels tl (fuel + 1) visited ((current, path) :: qrest)
                = bfsLoop rels tl fuel v' q' := by
              conv_lhs => unfold bfsLoop
              rw [hscan]
            rw [hstep] at hne ⊢
            obtain ⟨news, hveq, hqeq, hprops, hnewsnd, hclo⟩ :=
              bfsScan_inr tl current path rels visited qrest v' q' hscan
            have hhead := hsound (current, path) (List.mem_cons_self _ _)
            refine ih v' q' ?_ hne
            intro e he
            rw [hqeq] at he
            rcases List.mem_append.mp he with hmem | hmem
            · exact hsound e (List.mem_cons_of_mem _ hmem)
            · obtain ⟨r, hr, hract, hrnx, he2, _, _⟩ := hprops e hmem
              constructor
              · intro r' hr'
                rw [he2] at hr'
                rcases List.mem_append.mp hr' with h1 | h1
                · exact hhead.1 r' h1
                · rw [List.mem_singleton.mp h1]; exact hr
              · rw [he2, chainDest_append, hhead.2, Option.some_bind]
                unfold chainDest
                rw [if_pos hract, hrnx]
                rfl

/-- The singleton start state of the BFS satisfies the loop invariant. -/
theorem bfsInv_init (rels : List TableRelationship) (a b : String)
    (hne : pyLower a ≠ pyLower b) :
    BfsInv rels (pyLower a) (pyLower b) [pyLower a] [(pyLower a, [])] := by
  refine ⟨?_, ?_, ?_, ?_, ?_, ?_, ?_, ?_, ?_, ?_, ?_⟩
  · intro e he
    rw [List.mem_singleton.mp he]
    exact ⟨fun r hr => absurd hr (List.not_mem_nil r), rfl⟩
  · intro e he
    rw [List.mem_singleton.mp he]
    exact ⟨List.mem_singleton_self _, hne⟩
  · exact List.mem_singleton_self _
  · intro hmm
    exact hne (List.mem_singleton.mp hmm).symm
  · exact List.nodup_singleton _
  · intro v hv
    exact Or.inl (List.mem_singleton.mp hv)
  · exact List.pairwise_singleton _ _
  · intro e he e0 he0
    rw [List.mem_singleton.mp he]
    simp
  · intro x hx hnq r hr hract m hm
    exfalso
    apply hnq
    simp [List.mem_singleton.mp hx]
  · intro e he c hcsub hcd
    rw [List.mem_singleton.mp he]
    exact Nat.zero_le _
  · intro e0 he0 x c hcsub hcd hclen
    have he00 : (pyLower a, ([] : List TableRelationship)) = e0 :=
      Option.some.inj (Option.mem_def.mp he0)
    rw [← he00] at hclen
    have hc : c = [] := List.length_eq_zero.mp (Nat.le_zero.mp hclen)
    subst hc
    have hx : pyLower a = x := Option.some.inj hcd
    rw [← hx]
    exact List.mem_singleton_self _

/-- `get_join_path` with distinct (lower-cased) connected endpoints: the result
is made of the given relationships, chains from start to target, and is
shortest among all such chains. -/
theorem getJoinPath_spec (rels : List TableRelationship) (a b : String)
    (hne : pyLower a ≠ pyLower b)
    (hconn : ∃ c, (∀ r ∈ c, r ∈ rels) ∧ chainDest (pyLower a) c = some (pyLower b)) :
    (∀ r ∈ getJoinPath rels a b, r ∈ rels) ∧
    chainDest (pyLower a) (getJoinPath rels a b) = some (pyLower b) ∧
    ∀ c, (∀ r ∈ c, r ∈ rels) → chainDest (pyLower a) c = some (pyLower b) →
      (getJoinPath rels a b).length ≤ c.length := by
  have hgj : getJoinPath rels a b
      = bfsLoop rels (pyLower b) (2 * rels.length + 2) [pyLower a] [(pyLower a, [])] := by
    unfold getJoinPath
    dsimp only
    rw [if_neg hne]
  rw [hgj]
  exact bfsLoop_correct rels (pyLower a) (pyLower b) (2 * rels.length + 2)
    [pyLower a] [(pyLower a, [])] (bfsInv_init rels a b hne)
    (by simp only [List.length_singleton]; omega) hconn

/-- `get_join_path` returns the empty list when the lower-cased endpoints
coincide, and whatever it returns, if non-empty, is an active chain of given
relationships from start to target. -/
theorem getJoinPath_sound (rels : List TableRelationship) (a b : String) :
    (pyLower a = pyLower b → getJoinPath rels a b = []) ∧
    (getJoinPath rels a b ≠ [] →
      (∀ r ∈ getJoinPath rels a b, r ∈ rels) ∧
      chainDest (pyLower a) (getJoinPath rels a b) = some (pyLower b)) := by
  constructor
  · intro heq
    unfold getJoinPath
    dsimp only
    rw [if_pos heq]
  · intro hne2
    by_cases heq : pyLower a = pyLower b
    · exfalso
      apply hne2
      unfold getJoinPath
      dsimp only
      rw [if_pos heq]
    · have hgj : getJoinPath rels a b
          = bfsLoop rels (pyLower b) (2 * rels.length + 2) [pyLower a]
            [(pyLower a, [])] := by
        unfold getJoinPath
        dsimp only
        rw [if_neg heq]
      rw [hgj] at hne2 ⊢
      refine bfsLoop_sound rels (pyLower a) (pyLower b) (2 * rels.length + 2)
        [pyLower a] [(pyLower a, [])] ?_ hne2
      intro e he
      rw [List.mem_singleton.mp he]
      exact ⟨fun r hr => absurd hr (List.not_mem_nil r), rfl⟩

/-- C3: for every relationship list and every pair of tables with distinct
lower-cased names connected through a chain of listed relationships (each
traversable in either direction, traversed steps necessarily active),
`get_join_path` returns a list of listed, active relationships forming a
chain from the first table to the second that is shortest among all such
chains.  Instantiated on the sample retail star schema, the
dimension-to-dimension path has length 2 and the fact-to-dimension path has
length 1 (see the witness). -/
theorem get_join_path_bfs_shortest (rels : List TableRelationship) (a b : String)
    (hne : pyLower a ≠ pyLower b)
    (hconn : ∃ c, (∀ r ∈ c, r ∈ rels) ∧ chainDest (pyLower a) c = some (pyLower b)) :
    (∀ r ∈ getJoinPath rels a b, r ∈ rels ∧ r.is_active = true) ∧
    chainDest (pyLower a) (getJoinPath rels a b) = some (pyLower b) ∧
    ∀ c, (∀ r ∈ c, r ∈ rels) → chainDest (pyLower a) c = some (pyLower b) →
      (getJoinPath rels a b).length ≤ c.length := by
  obtain ⟨h1, h2, h3⟩ := getJoinPath_spec rels a b hne hconn
  exact ⟨fun r hr => ⟨h1 r hr, chainDest_active _ _ _ h2 r hr⟩, h2, h3⟩

theorem get_join_path_bfs_shortest_witness :
    (getJoinPath retailRels "dim_date" "dim_product").length = 2 ∧
    (getJoinPath retailRels "sales" "dim_date").length = 1 ∧
    (∀ r ∈ getJoinPath retailRels "dim_date" "dim_product",
        r ∈ retailRels ∧ r.is_active = true) ∧
    chainDest (pyLower "dim_date") (getJoinPath retailRels "dim_date" "dim_product")
      = some (pyLower "dim_product") ∧
    ∀ c, (∀ r ∈ c, r ∈ retailRels) →
      chainDest (pyLower "dim_date") c = some (pyLower "dim_product") →
      (getJoinPath retailRels "dim_date" "dim_product").length ≤ c.length := by
  have h := get_join_path_bfs_shortest retailRels "dim_date" "dim_product" (by decide)
    ⟨[⟨"sales", "date_key", "dim_date", "date_key", .MANY_TO_ONE, .SINGLE, true⟩,
      ⟨"sales", "product_key", "dim_product", "product_key", .MANY_TO_ONE, .SINGLE, true⟩],
     by decide, rfl⟩
  exact ⟨rfl, rfl, h.1, h.2.1, h.2.2⟩

/-- C6 counterexample: with one relationship between `c` and `d`, the tables
`a` and `b` have distinct lower-cased names and are disconnected, yet
`get_join_path` returns the very same empty list it returns for identical
tables — "no path" is not distinguishable from the identical-tables result. -/
theorem get_join_path_no_path_counterexample :
    pyLower "a" ≠ pyLower "b" ∧
    (¬∃ c, (∀ r ∈ c,
        r ∈ [(⟨"c", "k", "d", "k", .MANY_TO_ONE, .SINGLE, true⟩ : TableRelationship)]) ∧
      chainDest (pyLower "a") c = some (pyLower "b")) ∧
    getJoinPath [⟨"c", "k", "d", "k", .MANY_TO_ONE, .SINGLE, true⟩] "a" "b" = [] ∧
    getJoinPath [⟨"c", "k", "d", "k", .MANY_TO_ONE, .SINGLE, true⟩] "a" "a" = [] := by
  refine ⟨by decide, ?_, rfl, rfl⟩
  rintro ⟨c, hsub, hcd⟩
  cases c with
  | nil => exact absurd (Option.some.inj hcd) (by decide)
  | cons r rest =>
      have hr : r = ⟨"c", "k", "d", "k", .MANY_TO_ONE, .SINGLE, true⟩ :=
        List.mem_singleton.mp (hsub r (List.mem_cons_self _ _))
      rw [hr] at hcd
      rw [show chainDest (pyLower "a")
          ((⟨"c", "k", "d", "k", .MANY_TO_ONE, .SINGLE, true⟩ : TableRelationship) :: rest)
          = Option.none from rfl] at hcd
      exact Option.noConfusion hcd

/-- C6 amended: `get_join_path` returns the empty list exactly when the two
lower-cased names coincide or no chain of listed relationships connects them —
so the empty list conflates "identical tables" with "no path", and callers
cannot distinguish the two from the return value alone. -/
theorem get_join_path_empty_iff (rels : List TableRelationship) (a b : String) :
    getJoinPath rels a b = [] ↔
      (pyLower a = pyLower b ∨
        ¬∃ c, (∀ r ∈ c, r ∈ rels) ∧ chainDest (pyLower a) c = some (pyLower b)) := by
  constructor
  · intro hres
    by_cases heq : pyLower a = pyLower b
    · exact Or.inl heq
    · refine Or.inr ?_
      intro hconn
      have h := getJoinPath_spec rels a b heq hconn
      rw [hres] at h
      exact heq (Option.some.inj h.2.1)
  · intro h
    by_cases heq : pyLower a = pyLower b
    · exact (getJoinPath_sound rels a b).1 heq
    · rcases h with heq2 | hnconn
      · exact absurd heq2 heq
      · by_contra hne2
        have h2 := (getJoinPath_sound rels a b).2 hne2
        exact hnconn ⟨getJoinPath rels a b, h2.1, h2.2⟩
